import Mathlib

/-!
Verification of the sudoku constraint-propagation engine (sudoku.py).

The Python class `Sudoku` is shallowly embedded as a structure holding the
block shape `(m, n)`, the grid as a total function on coordinates
(`0` meaning empty, the dictionary/array of the source restricted to the
`N × N` domain in all statements), and the candidate dictionary `poss`.
Every operation below is translated from the corresponding method of the
source file; the solver loop of `solve` is modelled with explicit fuel and
the generator interleaving of `find_only`/`set` is made explicit in
`applyRngsLog`.
-/

abbrev Cell : Type := ℕ × ℕ

/-- Python-dict assignment `d[k] = v` on an association list: overwrite in
place when the key is present (keeping insertion order), append otherwise. -/
def dictSet {α β : Type} [DecidableEq α] (d : List (α × β)) (k : α) (v : β) :
    List (α × β) :=
  if k ∈ d.map Prod.fst then d.map (fun q => if q.1 = k then (k, v) else q)
  else d ++ [(k, v)]

/-- Lookup of a key in an association list (first match). -/
def lookupKey {α β : Type} [DecidableEq α] (k : α) : List (α × β) → Option β
  | [] => none
  | q :: rest => if q.1 = k then some q.2 else lookupKey k rest

/-- First-occurrence deduplication, the key order of a Python dict built by
repeated insertion. -/
def pyDedup (l : List ℕ) : List ℕ :=
  l.foldl (fun acc x => if x ∈ acc then acc else acc ++ [x]) []

/-- The elements of a finite set of naturals in increasing order
(insertion sort on the underlying list; the model of the iteration order
of a Python set of small integers). -/
def sortedList (s : Finset ℕ) : List ℕ :=
  Quotient.liftOn s.val (fun l => l.insertionSort (· ≤ ·))
    (fun l1 l2 h =>
      List.eq_of_perm_of_sorted
        ((List.perm_insertionSort _ l1).trans
          (h.trans (List.perm_insertionSort _ l2).symm))
        (List.sorted_insertionSort _ l1)
        (List.sorted_insertionSort _ l2))

structure Sudoku where
  m : ℕ
  n : ℕ
  grid : ℕ → ℕ → ℕ
  poss : ℕ → ℕ → Finset ℕ

namespace Sudoku

/-- `N = m*n`, the side length of the grid. -/
def N (S : Sudoku) : ℕ := S.m * S.n

/-- `row(i)`: the indices `(i, j) for j in range(N)`. -/
def row (S : Sudoku) (i : ℕ) : List Cell :=
  (List.range S.N).map (fun j => (i, j))

/-- `col(j)`: the indices `(i, j) for i in range(N)`. -/
def col (S : Sudoku) (j : ℕ) : List Cell :=
  (List.range S.N).map (fun i => (i, j))

/-- `region(i, j)`: all cells of the `m × n` block containing `(i, j)`,
anchored at `(i // m * m, j // n * n)`. -/
def region (S : Sudoku) (i j : ℕ) : List Cell :=
  (List.range S.m).flatMap (fun a =>
    (List.range S.n).map (fun b => (i / S.m * S.m + a, j / S.n * S.n + b)))

/-- The cells whose values constrain cell `(i, j)` (and, in `set`, the keys
whose candidate sets `set(i, j, value)` discards `value` from): the row `i`,
the column `j` and the region of `(i, j)`. -/
def unitCells (S : Sudoku) (i j : ℕ) : List Cell :=
  S.row i ++ S.col j ++ S.region i j

/-- `possible(i, j)`: the empty set if the cell is filled, otherwise
`{1..N}` minus the values appearing in the row, the column and the region
of `(i, j)` (the source subtracts the raw grid values, zeros included; the
zeros are irrelevant since `0` is not in `{1..N}`). -/
def possible (S : Sudoku) (i j : ℕ) : Finset ℕ :=
  if S.grid i j ≠ 0 then ∅
  else Finset.Icc 1 S.N \
    ((S.unitCells i j).map (fun c => S.grid c.1 c.2)).toFinset

/-- `make_poss_dict()`: recompute the whole candidate dictionary. -/
def make_poss_dict (S : Sudoku) : Sudoku :=
  { S with poss := fun i j => S.possible i j }

/-- `set(i, j, value)` without its assertion: write the grid cell, empty the
candidate set of `(i, j)`, and discard `value` from the candidate set of
every cell in the same row, column or region. -/
def set (S : Sudoku) (i j v : ℕ) : Sudoku :=
  { S with
    grid := fun x y => if x = i ∧ y = j then v else S.grid x y
    poss := fun x y =>
      if x = i ∧ y = j then ∅
      else if (x, y) ∈ S.unitCells i j then (S.poss x y).erase v
      else S.poss x y }

/-- The scan sequence of `only_in_range`: `for xy in rng: for val in
poss[xy]`, producing the `(val, xy)` visits in order.  The iteration order
of a Python set of small integers is increasing, modelled by sorting. -/
def scanPairs (S : Sudoku) (rng : List Cell) : List (ℕ × Cell) :=
  rng.flatMap (fun xy =>
    (sortedList (S.poss xy.1 xy.2)).map (fun v => (v, xy)))

/-- One step of building `found`: `found[val] = 0 if val in found else xy`
(`none` is the `0` sentinel marking an ambiguous value). -/
def foundStep (d : List (ℕ × Option Cell)) (p : ℕ × Cell) :
    List (ℕ × Option Cell) :=
  if p.1 ∈ d.map Prod.fst
  then d.map (fun q => if q.1 = p.1 then (q.1, none) else q)
  else d ++ [(p.1, some p.2)]

/-- One step of the result comprehension `{found[val]: val for val in found
if found[val]}`: insert the pair of a non-ambiguous value, skip a `0`
sentinel. -/
def resStep (F : List (Cell × ℕ)) (q : ℕ × Option Cell) : List (Cell × ℕ) :=
  match q.2 with
  | some c => dictSet F c q.1
  | none => F

/-- `only_in_range(rng)`: tally each candidate value's unique location, then
return `{found[val]: val for val in found if found[val]}` as an association
list in Python-dict order. -/
def only_in_range (S : Sudoku) (rng : List Cell) : List (Cell × ℕ) :=
  ((S.scanPairs rng).foldl foundStep []).foldl resStep []

/-- The ranges scanned by `find_only`, in order: for each `k < N` the row
`k`, the column `k` and the region of `(k, k % m * n)`. -/
def rngs (S : Sudoku) : List (List Cell) :=
  (List.range S.N).flatMap (fun k =>
    [S.row k, S.col k, S.region k (k % S.m * S.n)])

/-- `find_only()` evaluated against a fixed state: the pairs the scan yields
when no assignment is interleaved (the per-round snapshot scan). -/
def find_only (S : Sudoku) : List (Cell × ℕ) :=
  S.rngs.flatMap (fun r => S.only_in_range r)

/-- Apply a list of discovered assignments in order via `set`. -/
def applyItems (S : Sudoku) (items : List (Cell × ℕ)) : Sudoku :=
  items.foldl (fun T p => T.set p.1.1 p.1.2 p.2) S

/-- One round of `solve`'s `for xy,z in self.find_only()` loop with the
generator semantics of the source: each range is scanned against the current
state (including the assignments applied for earlier ranges of the same
round), its results are applied, and the scan moves to the next range.
Returns the final state and the log of applied assignments. -/
def applyRngsLog (S : Sudoku) : List (List Cell) → Sudoku × List (Cell × ℕ)
  | [] => (S, [])
  | r :: rest =>
    let items := S.only_in_range r
    let out := applyRngsLog (S.applyItems items) rest
    (out.1, items ++ out.2)

/-- One full round of the `while change:` loop of `solve`. -/
def solveRound (S : Sudoku) : Sudoku × List (Cell × ℕ) :=
  S.applyRngsLog S.rngs

/-- `solve()`: repeat rounds until a round applies no assignment.  The
source's `while` loop is modelled with explicit fuel. -/
def solve (fuel : ℕ) (S : Sudoku) : Sudoku :=
  match fuel with
  | 0 => S
  | f + 1 =>
    let out := S.solveRound
    if out.2.length = 0 then S else solve f out.1

/-- The state after `k` rounds of the solve loop. -/
def roundIter (S : Sudoku) : ℕ → Sudoku
  | 0 => S
  | k + 1 => ((S.roundIter k).solveRound).1

/-- Number of empty cells of the `N × N` grid. -/
def emptyCount (S : Sudoku) : ℕ :=
  ((Finset.range S.N ×ˢ Finset.range S.N).filter
    (fun p => S.grid p.1 p.2 = 0)).card

/-- The candidate-store invariant: on the grid domain, `poss` agrees with
the full recomputation `possible`. -/
def WF (S : Sudoku) : Prop :=
  ∀ x < S.N, ∀ y < S.N, S.poss x y = S.possible x y

/-- No value appears twice among the filled cells of the cell list `u`. -/
def cellsOK (S : Sudoku) (u : List Cell) : Prop :=
  ∀ a ∈ u, ∀ b ∈ u, a ≠ b →
    S.grid a.1 a.2 = S.grid b.1 b.2 → S.grid a.1 a.2 = 0

/-- The grid-uniqueness invariant: no value appears twice among the filled
cells of any row, any column, or any region. -/
def GridOK (S : Sudoku) : Prop :=
  (∀ i < S.N, S.cellsOK (S.row i)) ∧
  (∀ j < S.N, S.cellsOK (S.col j)) ∧
  (∀ i < S.N, ∀ j < S.N, S.cellsOK (S.region i j))

/-- Apply a sequence of `set` operations. -/
def applySets (S : Sudoku) : List (Cell × ℕ) → Sudoku
  | [] => S
  | p :: rest => applySets (S.set p.1.1 p.1.2 p.2) rest

/-- A sequence of assignments is legal when each one, at its turn, targets
an in-range empty cell with a value in `[1, N]`. -/
def legalSeq (S : Sudoku) : List (Cell × ℕ) → Prop
  | [] => True
  | p :: rest => p.1.1 < S.N ∧ p.1.2 < S.N ∧ S.grid p.1.1 p.1.2 = 0 ∧
      1 ≤ p.2 ∧ p.2 ≤ S.N ∧ legalSeq (S.set p.1.1 p.1.2 p.2) rest

def legalSeqDec (S : Sudoku) :
    (ops : List (Cell × ℕ)) → Decidable (S.legalSeq ops)
  | [] => .isTrue trivial
  | p :: rest => by
    have : Decidable (legalSeq (S.set p.1.1 p.1.2 p.2) rest) :=
      legalSeqDec (S.set p.1.1 p.1.2 p.2) rest
    unfold legalSeq
    exact inferInstance

instance (S : Sudoku) (ops : List (Cell × ℕ)) : Decidable (S.legalSeq ops) :=
  S.legalSeqDec ops

end Sudoku

/-- Build a `Sudoku` state from the block shape and a matrix of rows, with
the candidate dictionary already computed (`make_poss_dict`). -/
def mkSudoku (m n : ℕ) (rows : List (List ℕ)) : Sudoku :=
  Sudoku.make_poss_dict
    ⟨m, n, fun i j => (rows.getD i []).getD j 0, fun _ _ => ∅⟩

/-- The error conditions of the source, under the names of the specification
(the source raises `ValueError`/`AssertionError` with messages; the message
is kept where a claim quotes it). -/
inductive SudokuErr where
  | sizeErr : SudokuErr
  | assignErr : SudokuErr
  | argErr : String → SudokuErr
deriving DecidableEq

/-- `set` together with its assertion `assert self.grid[i,j]==0`: the
assignment fails on an already-filled cell (the specification's
`AssignmentError`) and otherwise performs `set`. -/
def Sudoku.setChecked (S : Sudoku) (i j v : ℕ) : Except SudokuErr Sudoku :=
  if S.grid i j = 0 then .ok (S.set i j v) else .error .assignErr

/-- The integer nearest to the square root: a model of Python's
`round(x ** 0.5)` (exact for every size a float represents faithfully). -/
def nearestSqrt (x : ℕ) : ℕ :=
  if x ≤ Nat.sqrt x * Nat.sqrt x + Nat.sqrt x then Nat.sqrt x
  else Nat.sqrt x + 1

/-- The loop `while n > 1 and N % n: n -= 1` of the size guess. -/
def guessLoop (N : ℕ) : ℕ → ℕ
  | 0 => 0
  | k + 1 => if k + 1 ≤ 1 ∨ N % (k + 1) = 0 then k + 1 else guessLoop N k

/-- A grid argument to the constructor: a flat sequence or a nested list
(the one- and two-dimensional cases of the source). -/
inductive GridArg where
  | flat : List ℕ → GridArg
  | mat : List (List ℕ) → GridArg

/-- The grid-normalisation part of `__init__`: cast to a matrix, reshape a
flat sequence to a square, reject a non-square matrix.  Returns the side
length and the entries. -/
def toMatrix : GridArg → Except SudokuErr (ℕ × (ℕ → ℕ → ℕ))
  | .flat l =>
    -- source: if n != (N := round(n**.5))**2: raise ValueError("A sudoku
    -- grid must be square, got total size {n} != N x N.")
    if l.length ≠ nearestSqrt l.length * nearestSqrt l.length then
      .error .sizeErr
    else .ok (nearestSqrt l.length,
      fun i j => l.getD (i * nearestSqrt l.length + j) 0)
  | .mat rows =>
    if rows.any (fun r => r.length != (rows.headD []).length) then
      -- a ragged nested list is not castable to a numpy integer array
      .error (.argErr ("Parameter grid is not castable"))
    else if rows.length ≠ (rows.headD []).length then
      -- source: raise ValueError("The grid must be a square matrix.")
      .error .sizeErr
    else .ok (rows.length, fun i j => (rows.getD i []).getD j 0)

/-- The size guess of the source for a grid of side `Ng`:
`n = round(Ng ** .5)`, decrement once when `n * n > Ng`, then count down to
the nearest divisor. -/
def guessN (Ng : ℕ) : ℕ :=
  guessLoop Ng
    (if nearestSqrt Ng * nearestSqrt Ng > Ng then nearestSqrt Ng - 1
     else nearestSqrt Ng)

/-- `__init__` with keyword arguments `m`, `n`, `grid` (positional
arguments are dispatched to exactly these by the source).  Follows the
source: validate the size parameters, default `n` to `m`, then either check
the supplied matrix against `m*n`, or infer `(m, n)` from the matrix side
(`n` = the result of counting down from `round(sqrt(N))`, adjusted, to the
nearest divisor), or build an all-zero grid, or fail when nothing was
given. -/
def initSudoku (mArg nArg : Option ℕ) (gridArg : Option GridArg) :
    Except SudokuErr Sudoku :=
  match mArg with
  | some 0 => .error (.argErr ("Parameter m must be a positive integer"))
  | _ =>
    match nArg with
    | some 0 => .error (.argErr ("Parameter n must be a positive integer"))
    | _ =>
      match gridArg with
      | some g =>
        match toMatrix g with
        | .error e => .error e
        | .ok (Ng, gfun) =>
          match mArg with
          | some m =>
            -- source: if self.N != N: raise ValueError("The given size
            -- N = m*n is different from the given grid's size!")
            if m * nArg.getD m ≠ Ng then .error .sizeErr
            else .ok ⟨m, nArg.getD m, gfun, fun _ _ => ∅⟩
          | none =>
            -- source: if n <= 1: raise ValueError("The size {N} of the
            -- given grid can't be written as m*n!")
            if guessN Ng ≤ 1 then .error .sizeErr
            else .ok ⟨Ng / guessN Ng, guessN Ng, gfun, fun _ _ => ∅⟩
      | none =>
        match mArg with
        | some m =>
          .ok ⟨m, nArg.getD m, fun _ _ => 0, fun _ _ => ∅⟩
        | none =>
          .error (.argErr ("Either the size or the grid must be given."))

/-- The cell occurrences of value `v` in a scan list: the cells visited
with `v` among their candidates, in visit order. -/
def occPairs (v : ℕ) (L : List (ℕ × Cell)) : List Cell :=
  (L.filter (fun p => decide (p.1 = v))).map Prod.snd

/-- The final tally of a value, given its occurrence list: absent, unique
location, or ambiguous (the `0` sentinel). -/
def tallyOf : List Cell → Option (Option Cell)
  | [] => none
  | [c] => some (some c)
  | _ :: _ :: _ => some none

/-- The cells of `rng` whose candidate set contains `v`. -/
def occCells (S : Sudoku) (rng : List Cell) (v : ℕ) : List Cell :=
  rng.filter (fun c => decide (v ∈ S.poss c.1 c.2))

/-- The values of the scan of `rng` in order of first discovery. -/
def scanOrder (S : Sudoku) (rng : List Cell) : List ℕ :=
  pyDedup ((S.scanPairs rng).map Prod.fst)

/-- The values uniquely placeable at `c` within `rng`, in order of first
discovery by the scan. -/
def uniqueValsAt (S : Sudoku) (rng : List Cell) (c : Cell) : List ℕ :=
  (scanOrder S rng).filter (fun v => decide (occCells S rng v = [c]))

/-! ### Decidability of the invariants -/

instance (S : Sudoku) : Decidable S.WF := by
  unfold Sudoku.WF; infer_instance

instance (S : Sudoku) (u : List Cell) : Decidable (S.cellsOK u) := by
  unfold Sudoku.cellsOK; infer_instance

instance (S : Sudoku) : Decidable S.GridOK := by
  unfold Sudoku.GridOK; infer_instance

/-! ### Geometry lemmas -/

namespace Sudoku

lemma mem_row {S : Sudoku} {i x y : ℕ} :
    (x, y) ∈ S.row i ↔ x = i ∧ y < S.N := by
  simp only [Sudoku.row, List.mem_map, List.mem_range, Prod.mk.injEq]
  constructor
  · rintro ⟨j, hj, hi, hy⟩; exact ⟨hi.symm, hy ▸ hj⟩
  · rintro ⟨hx, hy⟩; exact ⟨y, hy, hx.symm, rfl⟩

lemma mem_col {S : Sudoku} {j x y : ℕ} :
    (x, y) ∈ S.col j ↔ y = j ∧ x < S.N := by
  simp only [Sudoku.col, List.mem_map, List.mem_range, Prod.mk.injEq]
  constructor
  · rintro ⟨i, hi, hx, hj⟩; exact ⟨hj.symm, hx ▸ hi⟩
  · rintro ⟨hy, hx⟩; exact ⟨x, hx, rfl, hy.symm⟩

lemma mem_region {S : Sudoku} {i j x y : ℕ} :
    (x, y) ∈ S.region i j ↔
      (i / S.m * S.m ≤ x ∧ x < i / S.m * S.m + S.m ∧
       j / S.n * S.n ≤ y ∧ y < j / S.n * S.n + S.n) := by
  simp only [Sudoku.region, List.mem_flatMap, List.mem_map, List.mem_range,
    Prod.mk.injEq]
  constructor
  · rintro ⟨a, ha, b, hb, hx, hy⟩; omega
  · rintro ⟨h1, h2, h3, h4⟩
    exact ⟨x - i / S.m * S.m, by omega, y - j / S.n * S.n, by omega,
      by omega, by omega⟩

/-- Membership in the half-open block `[i/m*m, i/m*m + m)` is equality of
the floor quotients. -/
lemma block_mem_iff {m x i : ℕ} (hm : 0 < m) :
    (i / m * m ≤ x ∧ x < i / m * m + m) ↔ x / m = i / m := by
  constructor
  · rintro ⟨h1, h2⟩
    exact Nat.div_eq_of_lt_le h1 (by rw [add_mul, one_mul]; exact h2)
  · intro h
    have h1 : x / m * m ≤ x := Nat.div_mul_le_self x m
    have h2 : m * (x / m) + x % m = x := Nat.div_add_mod x m
    have h3 : x % m < m := Nat.mod_lt x hm
    constructor
    · rw [← h]; exact h1
    · rw [← h]
      have : m * (x / m) + m > x := by omega
      rw [mul_comm] at this; omega

lemma mem_region_div {S : Sudoku} (hm : 0 < S.m) (hn : 0 < S.n)
    {i j x y : ℕ} :
    (x, y) ∈ S.region i j ↔ x / S.m = i / S.m ∧ y / S.n = j / S.n := by
  rw [mem_region]
  rw [show (i / S.m * S.m ≤ x ∧ x < i / S.m * S.m + S.m ∧
       j / S.n * S.n ≤ y ∧ y < j / S.n * S.n + S.n) ↔
      ((i / S.m * S.m ≤ x ∧ x < i / S.m * S.m + S.m) ∧
       (j / S.n * S.n ≤ y ∧ y < j / S.n * S.n + S.n)) by tauto]
  rw [block_mem_iff hm, block_mem_iff hn]

lemma region_symm {S : Sudoku} (hm : 0 < S.m) (hn : 0 < S.n)
    {i j x y : ℕ} :
    (x, y) ∈ S.region i j ↔ (i, j) ∈ S.region x y := by
  rw [mem_region_div hm hn, mem_region_div hm hn, eq_comm,
    @eq_comm _ (y / S.n)]

/-- Two cells of the same region generate the same region list. -/
lemma region_eq_of_mem {S : Sudoku} (hm : 0 < S.m) (hn : 0 < S.n)
    {i j x y : ℕ} (h : (x, y) ∈ S.region i j) :
    S.region x y = S.region i j := by
  rw [mem_region_div hm hn] at h
  unfold Sudoku.region
  rw [h.1, h.2]

lemma mem_unitCells {S : Sudoku} {i j x y : ℕ} :
    (x, y) ∈ S.unitCells i j ↔
      (x, y) ∈ S.row i ∨ (x, y) ∈ S.col j ∨ (x, y) ∈ S.region i j := by
  simp [Sudoku.unitCells, List.mem_append, or_assoc]

lemma unit_symm {S : Sudoku} (hm : 0 < S.m) (hn : 0 < S.n)
    {i j x y : ℕ} (hi : i < S.N) (hj : j < S.N) (hx : x < S.N)
    (hy : y < S.N) :
    (x, y) ∈ S.unitCells i j ↔ (i, j) ∈ S.unitCells x y := by
  rw [mem_unitCells, mem_unitCells, mem_row, mem_row, mem_col, mem_col,
    region_symm hm hn]
  constructor
  · rintro (⟨h, _⟩ | ⟨h, _⟩ | h)
    · exact Or.inl ⟨h.symm, hj⟩
    · exact Or.inr (Or.inl ⟨h.symm, hi⟩)
    · exact Or.inr (Or.inr h)
  · rintro (⟨h, _⟩ | ⟨h, _⟩ | h)
    · exact Or.inl ⟨h.symm, hy⟩
    · exact Or.inr (Or.inl ⟨h.symm, hx⟩)
    · exact Or.inr (Or.inr h)

/-- Region cells of an in-range cell are in range. -/
lemma region_cells_lt {S : Sudoku} (hm : 0 < S.m) (hn : 0 < S.n)
    {i j x y : ℕ} (hi : i < S.N) (hj : j < S.N)
    (h : (x, y) ∈ S.region i j) : x < S.N ∧ y < S.N := by
  rw [mem_region] at h
  have hdm : i / S.m < S.n := by
    rw [Nat.div_lt_iff_lt_mul hm]; rw [Sudoku.N, mul_comm] at hi; exact hi
  have hdn : j / S.n < S.m := by
    rw [Nat.div_lt_iff_lt_mul hn]; rw [Sudoku.N] at hj; exact hj
  constructor
  · have : (i / S.m + 1) * S.m ≤ S.n * S.m := Nat.mul_le_mul_right _ hdm
    have hN : S.N = S.n * S.m := by rw [Sudoku.N, mul_comm]
    rw [hN]; calc x < i / S.m * S.m + S.m := h.2.1
      _ = (i / S.m + 1) * S.m := by ring
      _ ≤ S.n * S.m := this
  · have : (j / S.n + 1) * S.n ≤ S.m * S.n := Nat.mul_le_mul_right _ hdn
    rw [Sudoku.N]; calc y < j / S.n * S.n + S.n := h.2.2.2
      _ = (j / S.n + 1) * S.n := by ring
      _ ≤ S.m * S.n := this

lemma unit_cells_lt {S : Sudoku} (hm : 0 < S.m) (hn : 0 < S.n)
    {i j x y : ℕ} (hi : i < S.N) (hj : j < S.N)
    (h : (x, y) ∈ S.unitCells i j) : x < S.N ∧ y < S.N := by
  rw [mem_unitCells] at h
  rcases h with h | h | h
  · rw [mem_row] at h; exact ⟨h.1 ▸ hi, h.2⟩
  · rw [mem_col] at h; exact ⟨h.2, h.1 ▸ hj⟩
  · exact region_cells_lt hm hn hi hj h

/-! ### Lemmas about `set` -/

@[simp] lemma set_m (S : Sudoku) (i j v : ℕ) : (S.set i j v).m = S.m := rfl

@[simp] lemma set_n (S : Sudoku) (i j v : ℕ) : (S.set i j v).n = S.n := rfl

@[simp] lemma set_N (S : Sudoku) (i j v : ℕ) : (S.set i j v).N = S.N := rfl

lemma set_row (S : Sudoku) (i j v k : ℕ) :
    (S.set i j v).row k = S.row k := rfl

lemma set_col (S : Sudoku) (i j v k : ℕ) :
    (S.set i j v).col k = S.col k := rfl

lemma set_region (S : Sudoku) (i j v k l : ℕ) :
    (S.set i j v).region k l = S.region k l := rfl

lemma set_unitCells (S : Sudoku) (i j v k l : ℕ) :
    (S.set i j v).unitCells k l = S.unitCells k l := rfl

lemma set_grid_self (S : Sudoku) (i j v : ℕ) :
    (S.set i j v).grid i j = v := by simp [Sudoku.set]

lemma set_grid_other (S : Sudoku) {i j x y : ℕ} (v : ℕ)
    (hne : ¬(x = i ∧ y = j)) :
    (S.set i j v).grid x y = S.grid x y := by
  simp only [Sudoku.set]
  rw [if_neg hne]

lemma set_poss (S : Sudoku) (i j v x y : ℕ) :
    (S.set i j v).poss x y =
      if x = i ∧ y = j then ∅
      else if (x, y) ∈ S.unitCells i j then (S.poss x y).erase v
      else S.poss x y := rfl

lemma make_poss_dict_m (S : Sudoku) : S.make_poss_dict.m = S.m := rfl

lemma make_poss_dict_n (S : Sudoku) : S.make_poss_dict.n = S.n := rfl

lemma make_poss_dict_grid (S : Sudoku) :
    S.make_poss_dict.grid = S.grid := rfl

lemma make_poss_dict_possible (S : Sudoku) (i j : ℕ) :
    S.make_poss_dict.possible i j = S.possible i j := rfl

lemma make_poss_dict_WF (S : Sudoku) : S.make_poss_dict.WF := by
  intro x _ y _
  rfl

/-- Facts carried by candidate membership: the cell is empty and the value
is in `[1, N]`. -/
lemma possible_props {S : Sudoku} {i j v : ℕ} (h : v ∈ S.possible i j) :
    S.grid i j = 0 ∧ 1 ≤ v ∧ v ≤ S.N := by
  unfold Sudoku.possible at h
  by_cases h0 : S.grid i j ≠ 0
  · rw [if_pos h0] at h; simp at h
  · rw [if_neg h0] at h
    rw [Finset.mem_sdiff, Finset.mem_Icc] at h
    exact ⟨by omega, h.1.1, h.1.2⟩

/-- A candidate value does not appear anywhere in the cell's units. -/
lemma possible_not_unit_val {S : Sudoku} {i j v : ℕ}
    (h : v ∈ S.possible i j) :
    ∀ c ∈ S.unitCells i j, S.grid c.1 c.2 ≠ v := by
  intro c hc hv
  unfold Sudoku.possible at h
  by_cases h0 : S.grid i j ≠ 0
  · rw [if_pos h0] at h; simp at h
  · rw [if_neg h0] at h
    rw [Finset.mem_sdiff] at h
    apply h.2
    rw [List.mem_toFinset, List.mem_map]
    exact ⟨c, hc, hv⟩

end Sudoku

namespace Sudoku

lemma possible_filled {S : Sudoku} {i j : ℕ} (h : S.grid i j ≠ 0) :
    S.possible i j = ∅ := by
  unfold Sudoku.possible; rw [if_pos h]

/-- The heart of the incremental update: after `set(i, j, v)` on an empty
in-range cell, the recomputed candidate set of any in-range cell changes
exactly the way `set` changes the stored one. -/
lemma possible_set (S : Sudoku) (hm : 0 < S.m) (hn : 0 < S.n)
    {i j : ℕ} (hi : i < S.N) (hj : j < S.N) (hij0 : S.grid i j = 0)
    {v : ℕ} (hv : 1 ≤ v) {x y : ℕ} (hx : x < S.N) (hy : y < S.N) :
    (S.set i j v).possible x y =
      if x = i ∧ y = j then ∅
      else if (x, y) ∈ S.unitCells i j then (S.possible x y).erase v
      else S.possible x y := by
  by_cases hcell : x = i ∧ y = j
  · rw [if_pos hcell]
    obtain ⟨hx1, hy1⟩ := hcell; subst hx1; subst hy1
    apply possible_filled
    rw [set_grid_self]; omega
  · rw [if_neg hcell]
    have hgxy : (S.set i j v).grid x y = S.grid x y := set_grid_other S v hcell
    by_cases hu : (x, y) ∈ S.unitCells i j
    · rw [if_pos hu]
      by_cases hfill : S.grid x y = 0
      · have hmem : (i, j) ∈ S.unitCells x y :=
          (unit_symm hm hn hi hj hx hy).mp hu
        unfold Sudoku.possible
        rw [hgxy, if_neg (by omega : ¬¬S.grid x y = 0),
          if_neg (by omega : ¬¬S.grid x y = 0), set_N, set_unitCells]
        ext w
        simp only [Finset.mem_sdiff, Finset.mem_erase, Finset.mem_Icc,
          List.mem_toFinset, List.mem_map]
        constructor
        · rintro ⟨⟨hw1, hw2⟩, hno⟩
          refine ⟨?_, ⟨⟨hw1, hw2⟩, ?_⟩⟩
          · intro hwv
            exact hno ⟨(i, j), hmem, by rw [set_grid_self]; exact hwv.symm⟩
          · rintro ⟨c, hc, hgc⟩
            by_cases hcij : c.1 = i ∧ c.2 = j
            · rw [hcij.1, hcij.2, hij0] at hgc; omega
            · exact hno ⟨c, hc, by rw [set_grid_other S v hcij]; exact hgc⟩
        · rintro ⟨hwv, ⟨hw1, hw2⟩, hno⟩
          refine ⟨⟨hw1, hw2⟩, ?_⟩
          rintro ⟨c, hc, hgc⟩
          by_cases hcij : c.1 = i ∧ c.2 = j
          · rw [show c = (i, j) from Prod.ext hcij.1 hcij.2,
              set_grid_self] at hgc
            exact hwv hgc.symm
          · rw [set_grid_other S v hcij] at hgc
            exact hno ⟨c, hc, hgc⟩
      · have h1 : (S.set i j v).possible x y = ∅ :=
          possible_filled (by rw [hgxy]; exact hfill)
        have h2 : S.possible x y = ∅ := possible_filled hfill
        rw [h1, h2, Finset.erase_empty]
    · rw [if_neg hu]
      have hnotin : ∀ c ∈ S.unitCells x y, ¬(c.1 = i ∧ c.2 = j) := by
        rintro ⟨c1, c2⟩ hc ⟨h1, h2⟩
        subst h1; subst h2
        exact hu ((unit_symm hm hn hx hy hi hj).mp hc)
      unfold Sudoku.possible
      rw [hgxy, set_N, set_unitCells]
      by_cases hfill : S.grid x y ≠ 0
      · rw [if_pos hfill, if_pos hfill]
      · rw [if_neg hfill, if_neg hfill]
        have : (S.unitCells x y).map
              (fun c => (S.set i j v).grid c.1 c.2) =
            (S.unitCells x y).map (fun c => S.grid c.1 c.2) :=
          List.map_congr_left fun c hc => set_grid_other S v (hnotin c hc)
        rw [this]

/-- `set` on a legal target preserves the candidate-store invariant. -/
lemma set_WF {S : Sudoku} (hm : 0 < S.m) (hn : 0 < S.n) (hWF : S.WF)
    {i j v : ℕ} (hi : i < S.N) (hj : j < S.N) (hij0 : S.grid i j = 0)
    (hv : 1 ≤ v) : (S.set i j v).WF := by
  intro x hx y hy
  rw [set_N] at hx hy
  rw [set_poss, possible_set S hm hn hi hj hij0 hv hx hy, hWF x hx y hy]

/-- `set` with a value taken from the recomputed candidate set of its
target preserves duplicate-freeness of any unit that is either disjoint
from the target's units or contained in them. -/
lemma cellsOK_set {S : Sudoku} {u : List Cell} (hOK : S.cellsOK u)
    {i j v : ℕ}
    (hux : (i, j) ∈ u → ∀ c ∈ u, S.grid c.1 c.2 ≠ v) :
    (S.set i j v).cellsOK u := by
  intro a ha b hb hab hgeq
  by_cases hai : a = (i, j) <;> by_cases hbi : b = (i, j)
  · exact absurd (hai.trans hbi.symm) hab
  · exfalso
    have hga : (S.set i j v).grid a.1 a.2 = v := by
      rw [hai]; exact set_grid_self S i j v
    have hgb : (S.set i j v).grid b.1 b.2 = S.grid b.1 b.2 := by
      apply set_grid_other S v
      intro hc; exact hbi (Prod.ext hc.1 hc.2)
    rw [hga, hgb] at hgeq
    exact hux (hai ▸ ha) b hb hgeq.symm
  · exfalso
    have hgb : (S.set i j v).grid b.1 b.2 = v := by
      rw [hbi]; exact set_grid_self S i j v
    have hga : (S.set i j v).grid a.1 a.2 = S.grid a.1 a.2 := by
      apply set_grid_other S v
      intro hc; exact hai (Prod.ext hc.1 hc.2)
    rw [hga, hgb] at hgeq
    exact hux (hbi ▸ hb) a ha hgeq
  · have hga : (S.set i j v).grid a.1 a.2 = S.grid a.1 a.2 := by
      apply set_grid_other S v
      intro hc; exact hai (Prod.ext hc.1 hc.2)
    have hgb : (S.set i j v).grid b.1 b.2 = S.grid b.1 b.2 := by
      apply set_grid_other S v
      intro hc; exact hbi (Prod.ext hc.1 hc.2)
    rw [hga, hgb] at hgeq
    rw [hga]
    exact hOK a ha b hb hab hgeq

/-- `set` with a legal candidate value preserves the grid-uniqueness
invariant. -/
lemma GridOK_set {S : Sudoku} (hm : 0 < S.m) (hn : 0 < S.n)
    (hOK : S.GridOK) {i j v : ℕ} (hi : i < S.N) (hj : j < S.N)
    (hvmem : v ∈ S.possible i j) : (S.set i j v).GridOK := by
  have hval := possible_not_unit_val hvmem
  refine ⟨fun k hk => ?_, fun k hk => ?_, fun k hk l hl => ?_⟩
  · rw [set_N] at hk
    rw [set_row]
    apply cellsOK_set (hOK.1 k hk)
    intro hmem c hc
    have hk' : k = i := by
      have := mem_row.mp hmem; omega
    subst hk'
    apply hval
    rw [Sudoku.unitCells]
    exact List.mem_append_left _ (List.mem_append_left _ hc)
  · rw [set_N] at hk
    rw [set_col]
    apply cellsOK_set (hOK.2.1 k hk)
    intro hmem c hc
    have hk' : k = j := by
      have := mem_col.mp hmem; omega
    subst hk'
    apply hval
    rw [Sudoku.unitCells]
    exact List.mem_append_left _ (List.mem_append_right _ hc)
  · rw [set_N] at hk hl
    rw [set_region]
    apply cellsOK_set (hOK.2.2 k hk l hl)
    intro hmem c hc
    have hreg : S.region i j = S.region k l := region_eq_of_mem hm hn hmem
    apply hval
    rw [Sudoku.unitCells]
    refine List.mem_append_right _ ?_
    rw [hreg]
    exact hc

/-- Filling an in-range empty cell with a nonzero value decreases the
number of empty cells by exactly one. -/
lemma emptyCount_set {S : Sudoku} {i j v : ℕ} (hi : i < S.N)
    (hj : j < S.N) (h0 : S.grid i j = 0) (hv : v ≠ 0) :
    (S.set i j v).emptyCount + 1 = S.emptyCount := by
  unfold Sudoku.emptyCount
  rw [set_N]
  have hmem : (i, j) ∈ (Finset.range S.N ×ˢ Finset.range S.N).filter
      (fun p => S.grid p.1 p.2 = 0) := by
    simp [Finset.mem_filter, Finset.mem_product, hi, hj, h0]
  have hfe : (Finset.range S.N ×ˢ Finset.range S.N).filter
        (fun p => (S.set i j v).grid p.1 p.2 = 0) =
      ((Finset.range S.N ×ˢ Finset.range S.N).filter
        (fun p => S.grid p.1 p.2 = 0)).erase (i, j) := by
    ext p
    simp only [Finset.mem_filter, Finset.mem_erase, Finset.mem_product,
      Finset.mem_range]
    by_cases hp : p.1 = i ∧ p.2 = j
    · have hpe : p = (i, j) := Prod.ext hp.1 hp.2
      subst hpe
      rw [set_grid_self]
      constructor
      · rintro ⟨_, hvz⟩; omega
      · rintro ⟨hne, _⟩; exact absurd rfl hne
    · rw [set_grid_other S v hp]
      constructor
      · rintro ⟨hr, hz⟩
        refine ⟨?_, hr, hz⟩
        intro hpe; subst hpe; simp at hp
      · rintro ⟨_, hr, hz⟩; exact ⟨hr, hz⟩
  rw [hfe, Finset.card_erase_of_mem hmem]
  have hpos : 0 < ((Finset.range S.N ×ˢ Finset.range S.N).filter
      (fun p => S.grid p.1 p.2 = 0)).card :=
    Finset.card_pos.mpr ⟨(i, j), hmem⟩
  omega

end Sudoku

/-! ### Association-list lemmas -/

lemma lookupKey_eq_none {α β : Type} [DecidableEq α] {k : α}
    {d : List (α × β)} : lookupKey k d = none ↔ k ∉ d.map Prod.fst := by
  induction d with
  | nil => simp [lookupKey]
  | cons q rest ih =>
    simp only [lookupKey, List.map_cons, List.mem_cons]
    by_cases h : q.1 = k
    · simp [h]
    · rw [if_neg h, ih]
      constructor
      · rintro hnk (h1 | h2)
        · exact h h1.symm
        · exact hnk h2
      · intro hno h2; exact hno (Or.inr h2)

lemma lookupKey_append {α β : Type} [DecidableEq α] (k : α)
    (d e : List (α × β)) :
    lookupKey k (d ++ e) =
      match lookupKey k d with
      | some b => some b
      | none => lookupKey k e := by
  induction d with
  | nil => simp [lookupKey]
  | cons q rest ih =>
    simp only [List.cons_append, lookupKey, List.append_eq]
    by_cases h : q.1 = k
    · rw [if_pos h, if_pos h]
    · rw [if_neg h, if_neg h, ih]

lemma lookupKey_of_mem_nodup {α β : Type} [DecidableEq α]
    {d : List (α × β)} (hnd : (d.map Prod.fst).Nodup) {q : α × β}
    (hq : q ∈ d) : lookupKey q.1 d = some q.2 := by
  induction d with
  | nil => cases hq
  | cons p rest ih =>
    rw [List.map_cons, List.nodup_cons] at hnd
    rcases List.mem_cons.mp hq with h | h
    · subst h; simp [lookupKey]
    · have hne : p.1 ≠ q.1 := by
        intro he
        exact hnd.1 (he ▸ List.mem_map.mpr ⟨q, h, rfl⟩)
      simp only [lookupKey]
      rw [if_neg hne]
      exact ih hnd.2 h

lemma lookupKey_mem {α β : Type} [DecidableEq α] {k : α} {b : β}
    {d : List (α × β)} (h : lookupKey k d = some b) : (k, b) ∈ d := by
  induction d with
  | nil => simp [lookupKey] at h
  | cons q rest ih =>
    simp only [lookupKey] at h
    by_cases hq : q.1 = k
    · rw [if_pos hq] at h
      have hb : q.2 = b := by injection h
      exact List.mem_cons.mpr (Or.inl (Prod.ext hq hb).symm)
    · rw [if_neg hq] at h
      exact List.mem_cons.mpr (Or.inr (ih h))

lemma lookupKey_map_overwrite {α β : Type} [DecidableEq α]
    {d : List (α × β)} {k : α} (h : k ∈ d.map Prod.fst) (v : β) :
    lookupKey k (d.map (fun q => if q.1 = k then (k, v) else q)) = some v := by
  induction d with
  | nil => simp at h
  | cons q rest ih =>
    simp only [List.map_cons]
    by_cases hq : q.1 = k
    · rw [if_pos hq]
      simp [lookupKey]
    · rw [if_neg hq]
      have h2 : k ∈ rest.map Prod.fst := by
        rw [List.map_cons, List.mem_cons] at h
        rcases h with h1 | h1
        · exact absurd h1.symm hq
        · exact h1
      simp only [lookupKey]
      rw [if_neg hq]
      exact ih h2

lemma lookupKey_map_overwrite_other {α β : Type} [DecidableEq α]
    {d : List (α × β)} {k k2 : α} (hne : k2 ≠ k) (v : β) :
    lookupKey k2 (d.map (fun q => if q.1 = k then (k, v) else q)) =
      lookupKey k2 d := by
  induction d with
  | nil => rfl
  | cons q rest ih =>
    simp only [List.map_cons, lookupKey]
    by_cases hq : q.1 = k
    · rw [if_pos hq]
      have h1 : ¬(k = k2) := fun he => hne he.symm
      have h2 : ¬(q.1 = k2) := by rw [hq]; exact h1
      dsimp only
      rw [if_neg h1, if_neg h2, ih]
    · rw [if_neg hq]
      by_cases h2 : q.1 = k2
      · rw [if_pos h2, if_pos h2]
      · rw [if_neg h2, if_neg h2, ih]

lemma lookupKey_dictSet_self {α β : Type} [DecidableEq α]
    (d : List (α × β)) (k : α) (v : β) :
    lookupKey k (dictSet d k v) = some v := by
  unfold dictSet
  by_cases h : k ∈ d.map Prod.fst
  · rw [if_pos h]; exact lookupKey_map_overwrite h v
  · rw [if_neg h, lookupKey_append, lookupKey_eq_none.mpr h]
    show lookupKey k [(k, v)] = some v
    simp [lookupKey]

lemma lookupKey_dictSet_other {α β : Type} [DecidableEq α]
    {d : List (α × β)} {k k2 : α} (hne : k2 ≠ k) (v : β) :
    lookupKey k2 (dictSet d k v) = lookupKey k2 d := by
  unfold dictSet
  by_cases h : k ∈ d.map Prod.fst
  · rw [if_pos h]; exact lookupKey_map_overwrite_other hne v
  · rw [if_neg h, lookupKey_append]
    cases hld : lookupKey k2 d with
    | some b => rfl
    | none =>
      have h1 : ¬(k = k2) := fun he => hne he.symm
      show lookupKey k2 [(k, v)] = none
      simp [lookupKey, h1]

lemma dictSet_map_fst {α β : Type} [DecidableEq α]
    (d : List (α × β)) (k : α) (v : β) :
    (dictSet d k v).map Prod.fst =
      if k ∈ d.map Prod.fst then d.map Prod.fst
      else d.map Prod.fst ++ [k] := by
  unfold dictSet
  by_cases h : k ∈ d.map Prod.fst
  · rw [if_pos h, if_pos h, List.map_map]
    apply List.map_congr_left
    intro q _
    by_cases hq : q.1 = k
    · simp [Function.comp, hq]
    · simp [Function.comp, hq]
  · rw [if_neg h, if_neg h, List.map_append]
    rfl

lemma dictSet_keys_nodup {α β : Type} [DecidableEq α]
    {d : List (α × β)} (h : (d.map Prod.fst).Nodup) (k : α) (v : β) :
    ((dictSet d k v).map Prod.fst).Nodup := by
  rw [dictSet_map_fst]
  by_cases hk : k ∈ d.map Prod.fst
  · rw [if_pos hk]; exact h
  · rw [if_neg hk, List.nodup_append]
    refine ⟨h, List.nodup_singleton k, ?_⟩
    intro a ha hb
    rw [List.mem_singleton] at hb
    subst hb
    exact hk ha

lemma dictSet_mem {α β : Type} [DecidableEq α] {d : List (α × β)}
    {k : α} {v : β} {p : α × β} (hp : p ∈ dictSet d k v) :
    p = (k, v) ∨ p ∈ d := by
  unfold dictSet at hp
  by_cases h : k ∈ d.map Prod.fst
  · rw [if_pos h] at hp
    rcases List.mem_map.mp hp with ⟨q, hq, he⟩
    by_cases hqk : q.1 = k
    · rw [if_pos hqk] at he; exact Or.inl he.symm
    · rw [if_neg hqk] at he; exact Or.inr (he ▸ hq)
  · rw [if_neg h] at hp
    rcases List.mem_append.mp hp with h1 | h1
    · exact Or.inr h1
    · rw [List.mem_singleton] at h1; exact Or.inl h1

lemma dictSet_snd_mem {α β : Type} [DecidableEq α] {d : List (α × β)}
    {k : α} {v w : β} (h : w ∈ (dictSet d k v).map Prod.snd) :
    w = v ∨ w ∈ d.map Prod.snd := by
  rcases List.mem_map.mp h with ⟨p, hp, he⟩
  rcases dictSet_mem hp with h1 | h1
  · left; rw [← he, h1]
  · right; exact List.mem_map.mpr ⟨p, h1, he⟩

lemma dictSet_snd_nodup {α β : Type} [DecidableEq α] {d : List (α × β)}
    (hfst : (d.map Prod.fst).Nodup) (hsnd : (d.map Prod.snd).Nodup)
    {k : α} {v : β} (hv : v ∉ d.map Prod.snd) :
    ((dictSet d k v).map Prod.snd).Nodup := by
  unfold dictSet
  by_cases h : k ∈ d.map Prod.fst
  · rw [if_pos h, List.map_map]
    have hd : d.Nodup := List.Nodup.of_map _ hfst
    apply List.Nodup.map_on _ hd
    intro p hp q hq he
    by_cases hpk : p.1 = k <;> by_cases hqk : q.1 = k
    · exact List.inj_on_of_nodup_map hfst hp hq (hpk.trans hqk.symm)
    · exfalso
      simp only [Function.comp, if_pos hpk, if_neg hqk] at he
      exact hv (he ▸ List.mem_map.mpr ⟨q, hq, rfl⟩)
    · exfalso
      simp only [Function.comp, if_pos hqk, if_neg hpk] at he
      exact hv (he ▸ List.mem_map.mpr ⟨p, hp, rfl⟩)
    · simp only [Function.comp, if_neg hpk, if_neg hqk] at he
      exact List.inj_on_of_nodup_map hsnd hp hq he
  · rw [if_neg h, List.map_append]
    rw [List.nodup_append]
    refine ⟨hsnd, List.nodup_singleton v, ?_⟩
    intro a ha hb
    rw [show ([(k, v)].map Prod.snd) = [v] from rfl, List.mem_singleton] at hb
    subst hb
    exact hv ha

/-! ### `pyDedup` lemmas -/

lemma pyDedup_aux_mem (l : List ℕ) :
    ∀ (acc : List ℕ) (x : ℕ),
      x ∈ l.foldl (fun acc y => if y ∈ acc then acc else acc ++ [y]) acc ↔
        x ∈ acc ∨ x ∈ l := by
  induction l with
  | nil => intro acc x; simp
  | cons y rest ih =>
    intro acc x
    simp only [List.foldl_cons]
    rw [ih]
    by_cases hy : y ∈ acc
    · rw [if_pos hy]
      simp only [List.mem_cons]
      constructor
      · rintro (h | h)
        · exact Or.inl h
        · exact Or.inr (Or.inr h)
      · rintro (h | h | h)
        · exact Or.inl h
        · exact Or.inl (h ▸ hy)
        · exact Or.inr h
    · rw [if_neg hy]
      simp only [List.mem_append, List.mem_singleton, List.mem_cons]
      tauto

lemma pyDedup_mem {l : List ℕ} {x : ℕ} : x ∈ pyDedup l ↔ x ∈ l := by
  unfold pyDedup
  rw [pyDedup_aux_mem]
  simp

lemma pyDedup_aux_nodup (l : List ℕ) :
    ∀ acc : List ℕ, acc.Nodup →
      (l.foldl (fun acc y => if y ∈ acc then acc else acc ++ [y]) acc).Nodup := by
  induction l with
  | nil => intro acc h; exact h
  | cons y rest ih =>
    intro acc h
    simp only [List.foldl_cons]
    by_cases hy : y ∈ acc
    · rw [if_pos hy]; exact ih acc h
    · rw [if_neg hy]
      apply ih
      rw [List.nodup_append]
      refine ⟨h, List.nodup_singleton y, ?_⟩
      intro a ha hb
      rw [List.mem_singleton] at hb
      subst hb
      exact hy ha

lemma pyDedup_nodup (l : List ℕ) : (pyDedup l).Nodup :=
  pyDedup_aux_nodup l [] List.nodup_nil

lemma pyDedup_append_one (l : List ℕ) (x : ℕ) :
    pyDedup (l ++ [x]) =
      if x ∈ pyDedup l then pyDedup l else pyDedup l ++ [x] := by
  unfold pyDedup
  rw [List.foldl_append]
  simp only [List.foldl_cons, List.foldl_nil]

/-! ### `tallyOf` and `occPairs` lemmas -/

lemma tallyOf_eq_none {l : List Cell} : tallyOf l = none ↔ l = [] := by
  match l with
  | [] => simp [tallyOf]
  | [a] => simp [tallyOf]
  | a :: b :: t => simp [tallyOf]

lemma tallyOf_eq_some_some {l : List Cell} {c : Cell} :
    tallyOf l = some (some c) ↔ l = [c] := by
  match l with
  | [] => simp [tallyOf]
  | [a] => simp [tallyOf]
  | a :: b :: t => simp [tallyOf]

lemma tallyOf_append_of_ne_nil {l : List Cell} (h : l ≠ []) (c : Cell) :
    tallyOf (l ++ [c]) = some none := by
  match l with
  | [] => exact absurd rfl h
  | [a] => rfl
  | a :: b :: t => rfl

lemma occPairs_cons (v : ℕ) (p : ℕ × Cell) (L : List (ℕ × Cell)) :
    occPairs v (p :: L) =
      (if p.1 = v then [p.2] else []) ++ occPairs v L := by
  unfold occPairs
  rw [List.filter_cons]
  by_cases h : p.1 = v
  · simp [h]
  · simp [h]

lemma occPairs_append (v : ℕ) (L1 L2 : List (ℕ × Cell)) :
    occPairs v (L1 ++ L2) = occPairs v L1 ++ occPairs v L2 := by
  unfold occPairs
  rw [List.filter_append, List.map_append]

lemma occPairs_nil (v : ℕ) : occPairs v [] = [] := rfl

lemma occPairs_mem {v : ℕ} {L : List (ℕ × Cell)} {c : Cell}
    (h : c ∈ occPairs v L) : (v, c) ∈ L := by
  unfold occPairs at h
  rcases List.mem_map.mp h with ⟨q, hq, he⟩
  have h2 := List.mem_filter.mp hq
  have h3 : q.1 = v := by
    have := h2.2
    simpa using this
  have : q = (v, c) := Prod.ext h3 he
  exact this ▸ h2.1

lemma lookupKey_mapNone_self {β : Type} {d : List (ℕ × Option β)} {k : ℕ}
    (h : k ∈ d.map Prod.fst) :
    lookupKey k
      (d.map (fun q => if q.1 = k then (q.1, (none : Option β)) else q)) =
      some none := by
  induction d with
  | nil => simp at h
  | cons q rest ih =>
    simp only [List.map_cons, lookupKey]
    by_cases hq : q.1 = k
    · rw [if_pos hq]
      dsimp only
      rw [if_pos hq]
    · rw [if_neg hq]
      rw [if_neg hq]
      apply ih
      rw [List.map_cons, List.mem_cons] at h
      rcases h with h1 | h1
      · exact absurd h1.symm hq
      · exact h1

lemma lookupKey_mapNone_other {β : Type} {d : List (ℕ × Option β)}
    {k w : ℕ} (hne : w ≠ k) :
    lookupKey w
      (d.map (fun q => if q.1 = k then (q.1, (none : Option β)) else q)) =
      lookupKey w d := by
  induction d with
  | nil => rfl
  | cons q rest ih =>
    simp only [List.map_cons, lookupKey]
    by_cases hq : q.1 = k
    · rw [if_pos hq]
      dsimp only
      have h2 : ¬(q.1 = w) := by rw [hq]; exact fun he => hne he.symm
      rw [if_neg h2, if_neg h2, ih]
    · rw [if_neg hq]
      by_cases h2 : q.1 = w
      · rw [if_pos h2, if_pos h2]
      · rw [if_neg h2, if_neg h2, ih]

namespace Sudoku

/-- The `found` dictionary built by `only_in_range`, characterised: its keys
are the scanned values in first-visit order, and each value's entry is the
tally of its occurrences. -/
lemma foundStep_fold_spec (L : List (ℕ × Cell)) :
    ∀ (d : List (ℕ × Option Cell)) (P : List (ℕ × Cell)),
      d.map Prod.fst = pyDedup (P.map Prod.fst) →
      (∀ v, lookupKey v d = tallyOf (occPairs v P)) →
      (L.foldl foundStep d).map Prod.fst = pyDedup ((P ++ L).map Prod.fst) ∧
      (∀ v, lookupKey v (L.foldl foundStep d) =
        tallyOf (occPairs v (P ++ L))) := by
  induction L with
  | nil =>
    intro d P h1 h2
    constructor
    · simpa using h1
    · intro v
      rw [List.append_nil]
      exact h2 v
  | cons p rest ih =>
    intro d P h1 h2
    have step1 : (foundStep d p).map Prod.fst =
        pyDedup ((P ++ [p]).map Prod.fst) := by
      rw [List.map_append, show [p].map Prod.fst = [p.1] from rfl,
        pyDedup_append_one, ← h1]
      unfold foundStep
      by_cases hp : p.1 ∈ d.map Prod.fst
      · rw [if_pos hp, if_pos hp, List.map_map]
        apply List.map_congr_left
        intro q _
        by_cases hq : q.1 = p.1
        · simp [Function.comp, hq]
        · simp [Function.comp, hq]
      · rw [if_neg hp, if_neg hp, List.map_append]
        rfl
    have step2 : ∀ v, lookupKey v (foundStep d p) =
        tallyOf (occPairs v (P ++ [p])) := by
      intro v
      rw [occPairs_append, occPairs_cons v p [], occPairs_nil,
        List.append_nil]
      unfold foundStep
      by_cases hv : p.1 = v
      · rw [if_pos hv]
        by_cases hp : p.1 ∈ d.map Prod.fst
        · rw [if_pos hp]
          have hvmem : v ∈ d.map Prod.fst := hv ▸ hp
          have hoccne : occPairs v P ≠ [] := by
            intro he
            have hnone := h2 v
            rw [he] at hnone
            rw [show tallyOf [] = none from rfl] at hnone
            exact (lookupKey_eq_none.mp hnone) hvmem
          rw [hv, lookupKey_mapNone_self hvmem,
            tallyOf_append_of_ne_nil hoccne]
        · rw [if_neg hp]
          have hvmem : v ∉ d.map Prod.fst := by
            intro hm; apply hp; rw [hv]; exact hm
          have hnone : lookupKey v d = none := lookupKey_eq_none.mpr hvmem
          have hoccnil : occPairs v P = [] := by
            have h3 := h2 v
            rw [hnone] at h3
            exact tallyOf_eq_none.mp h3.symm
          rw [hoccnil, List.nil_append, lookupKey_append, hnone]
          show lookupKey v [(p.1, some p.2)] = tallyOf [p.2]
          simp [lookupKey, hv, tallyOf]
      · rw [if_neg hv, List.append_nil]
        by_cases hp : p.1 ∈ d.map Prod.fst
        · rw [if_pos hp]
          have hne : v ≠ p.1 := fun he => hv he.symm
          rw [lookupKey_mapNone_other hne]
          exact h2 v
        · rw [if_neg hp, lookupKey_append, ← h2 v]
          cases hld : lookupKey v d with
          | some b => rfl
          | none =>
            show lookupKey v [(p.1, some p.2)] = none
            simp [lookupKey, hv]
    have hmain := ih (foundStep d p) (P ++ [p]) step1 step2
    simp only [List.foldl_cons]
    constructor
    · have h3 := hmain.1
      rw [List.append_assoc, List.singleton_append] at h3
      exact h3
    · intro v
      have h3 := hmain.2 v
      rw [List.append_assoc, List.singleton_append] at h3
      exact h3

lemma found_keys (S : Sudoku) (rng : List Cell) :
    ((S.scanPairs rng).foldl foundStep []).map Prod.fst =
      scanOrder S rng := by
  have h := (foundStep_fold_spec (S.scanPairs rng) [] []
    (by rfl) (fun v => rfl)).1
  rw [List.nil_append] at h
  exact h

lemma found_lookup (S : Sudoku) (rng : List Cell) (v : ℕ) :
    lookupKey v ((S.scanPairs rng).foldl foundStep []) =
      tallyOf (occPairs v (S.scanPairs rng)) := by
  have h := (foundStep_fold_spec (S.scanPairs rng) [] []
    (by rfl) (fun w => rfl)).2 v
  rw [List.nil_append] at h
  exact h

lemma found_keys_nodup (S : Sudoku) (rng : List Cell) :
    (((S.scanPairs rng).foldl foundStep []).map Prod.fst).Nodup := by
  rw [found_keys]
  exact pyDedup_nodup _

end Sudoku

lemma getLast?_cons_of_ne_nil {α : Type} (a : α) {l : List α}
    (hl : l ≠ []) : (a :: l).getLast? = l.getLast? := by
  rcases List.exists_cons_of_ne_nil hl with ⟨b, t, rfl⟩
  exact List.getLast?_cons_cons

lemma occPairs_map_const {l : List ℕ} (hl : l.Nodup) (c : Cell) (v : ℕ) :
    occPairs v (l.map (fun w => (w, c))) = if v ∈ l then [c] else [] := by
  induction l with
  | nil => simp [occPairs]
  | cons a rest ih =>
    rw [List.nodup_cons] at hl
    simp only [List.map_cons]
    rw [occPairs_cons, ih hl.2]
    by_cases hv : a = v
    · subst hv
      rw [if_pos rfl, if_neg hl.1, if_pos (List.mem_cons_self a rest)]
      rfl
    · rw [if_neg hv]
      by_cases hmem : v ∈ rest
      · rw [if_pos hmem, if_pos (List.mem_cons_of_mem a hmem)]
        rfl
      · rw [if_neg hmem, if_neg (by
          rw [List.mem_cons]
          rintro (h | h)
          · exact hv h.symm
          · exact hmem h)]
        rfl

lemma mem_sortedList {s : Finset ℕ} {v : ℕ} :
    v ∈ sortedList s ↔ v ∈ s := by
  rcases s with ⟨val, hnd⟩
  induction val using Quotient.inductionOn with
  | h l =>
    show v ∈ l.insertionSort (· ≤ ·) ↔ _
    rw [(List.perm_insertionSort _ l).mem_iff]
    rfl

lemma sortedList_nodup (s : Finset ℕ) : (sortedList s).Nodup := by
  rcases s with ⟨val, hnd⟩
  induction val using Quotient.inductionOn with
  | h l =>
    show (l.insertionSort (· ≤ ·)).Nodup
    exact ((List.perm_insertionSort _ l).nodup_iff).mpr hnd

namespace Sudoku

lemma scanPairs_cons (S : Sudoku) (c : Cell) (rest : List Cell) :
    S.scanPairs (c :: rest) =
      (sortedList (S.poss c.1 c.2)).map (fun v => (v, c)) ++
        S.scanPairs rest := by
  unfold Sudoku.scanPairs
  rw [List.flatMap_cons]

lemma occPairs_scanPairs (S : Sudoku) (rng : List Cell) (v : ℕ) :
    occPairs v (S.scanPairs rng) = occCells S rng v := by
  induction rng with
  | nil => rfl
  | cons c rest ih =>
    rw [scanPairs_cons, occPairs_append, ih]
    unfold occCells
    rw [List.filter_cons]
    rw [occPairs_map_const (sortedList_nodup (S.poss c.1 c.2)) c v]
    by_cases h : v ∈ S.poss c.1 c.2
    · rw [if_pos (mem_sortedList.mpr h)]
      rw [if_pos (by simpa using h)]
      rfl
    · rw [if_neg (fun hs => h (mem_sortedList.mp hs))]
      rw [if_neg (by simpa using h)]
      rfl

lemma scanPairs_mem {S : Sudoku} {rng : List Cell} {v : ℕ} {c : Cell}
    (h : (v, c) ∈ S.scanPairs rng) : c ∈ rng ∧ v ∈ S.poss c.1 c.2 := by
  unfold Sudoku.scanPairs at h
  rcases List.mem_flatMap.mp h with ⟨xy, hxy, hmem⟩
  rcases List.mem_map.mp hmem with ⟨w, hw, he⟩
  have he1 : w = v := congrArg Prod.fst he
  have he2 : xy = c := congrArg Prod.snd he
  subst he1; subst he2
  exact ⟨hxy, mem_sortedList.mp hw⟩

/-- Lookup in the folded result dictionary: the last matching insertion
wins (Python dict overwrite semantics). -/
lemma resFold_lookup (c : Cell) (L : List (ℕ × Option Cell)) :
    ∀ F : List (Cell × ℕ),
      lookupKey c (L.foldl resStep F) =
        match (L.filter (fun q => decide (q.2 = some c))).getLast? with
        | some q => some q.1
        | none => lookupKey c F := by
  induction L with
  | nil => intro F; rfl
  | cons q rest ih =>
    intro F
    simp only [List.foldl_cons, List.filter_cons]
    rw [ih (resStep F q)]
    by_cases hq : q.2 = some c
    · rw [if_pos (by simpa using hq)]
      cases hfr : (rest.filter (fun q => decide (q.2 = some c))) with
      | nil =>
        show lookupKey c (resStep F q) = some q.1
        have hstep : resStep F q = dictSet F c q.1 := by
          unfold resStep
          rw [hq]
        rw [hstep, lookupKey_dictSet_self]
      | cons b t =>
        rw [List.getLast?_cons_cons]
        cases hbt : (b :: t).getLast? with
        | some p => rfl
        | none => simp at hbt
    · rw [if_neg (by simpa using hq)]
      cases hfr : (rest.filter (fun q => decide (q.2 = some c))).getLast? with
      | some p => rfl
      | none =>
        show lookupKey c (resStep F q) = lookupKey c F
        cases hq2 : q.2 with
        | none =>
          have hstep : resStep F q = F := by unfold resStep; rw [hq2]
          rw [hstep]
        | some c2 =>
          have hne : c ≠ c2 := by
            intro he
            exact hq (by rw [hq2, he])
          have hstep : resStep F q = dictSet F c2 q.1 := by
            unfold resStep; rw [hq2]
          rw [hstep, lookupKey_dictSet_other hne]

lemma resFold_mem {M : List (ℕ × Option Cell)} (L : List (ℕ × Option Cell)) :
    ∀ F : List (Cell × ℕ),
      (∀ p ∈ F, (p.2, some p.1) ∈ M) → (∀ q ∈ L, q ∈ M) →
      ∀ p ∈ L.foldl resStep F, (p.2, some p.1) ∈ M := by
  induction L with
  | nil => intro F hF _ p hp; exact hF p hp
  | cons q rest ih =>
    intro F hF hL p hp
    simp only [List.foldl_cons] at hp
    refine ih (resStep F q) ?_
      (fun r hr => hL r (List.mem_cons_of_mem _ hr)) p hp
    intro r hr
    cases hq : q.2 with
    | none =>
      rw [show resStep F q = F by unfold resStep; rw [hq]] at hr
      exact hF r hr
    | some c =>
      rw [show resStep F q = dictSet F c q.1 by unfold resStep; rw [hq]] at hr
      rcases dictSet_mem hr with h1 | h1
      · rw [h1]
        have hqM : q ∈ M := hL q (List.mem_cons_self q rest)
        have : q = (q.1, some c) := by
          rw [← hq]
        rw [this] at hqM
        exact hqM
      · exact hF r h1

lemma resFold_fst_nodup (L : List (ℕ × Option Cell)) :
    ∀ F : List (Cell × ℕ),
      (F.map Prod.fst).Nodup → ((L.foldl resStep F).map Prod.fst).Nodup := by
  induction L with
  | nil => intro F h; exact h
  | cons q rest ih =>
    intro F h
    simp only [List.foldl_cons]
    apply ih
    cases hq : q.2 with
    | none => rw [show resStep F q = F by unfold resStep; rw [hq]]; exact h
    | some c =>
      rw [show resStep F q = dictSet F c q.1 by unfold resStep; rw [hq]]
      exact dictSet_keys_nodup h c q.1

lemma resFold_snd_nodup (L : List (ℕ × Option Cell)) :
    ∀ F : List (Cell × ℕ),
      (F.map Prod.fst).Nodup → (F.map Prod.snd).Nodup →
      (L.map Prod.fst).Nodup →
      (∀ w ∈ F.map Prod.snd, w ∉ L.map Prod.fst) →
      ((L.foldl resStep F).map Prod.snd).Nodup := by
  induction L with
  | nil => intro F _ h _ _; exact h
  | cons q rest ih =>
    intro F hfst hsnd hL hdisj
    simp only [List.foldl_cons]
    rw [List.map_cons, List.nodup_cons] at hL
    cases hq : q.2 with
    | none =>
      rw [show resStep F q = F by unfold resStep; rw [hq]]
      apply ih F hfst hsnd hL.2
      intro w hw hmem
      exact hdisj w hw (List.mem_cons_of_mem _ hmem)
    | some c =>
      rw [show resStep F q = dictSet F c q.1 by unfold resStep; rw [hq]]
      have hvnew : q.1 ∉ F.map Prod.snd := fun hmem =>
        hdisj q.1 hmem (List.mem_cons_self _ _)
      apply ih _ (dictSet_keys_nodup hfst c q.1)
        (dictSet_snd_nodup hfst hsnd hvnew) hL.2
      intro w hw hmem
      rcases dictSet_snd_mem hw with h1 | h1
      · subst h1; exact hL.1 hmem
      · exact hdisj w h1 (List.mem_cons_of_mem _ hmem)

end Sudoku

namespace Sudoku

lemma only_in_range_eq (S : Sudoku) (rng : List Cell) :
    S.only_in_range rng =
      ((S.scanPairs rng).foldl foundStep []).foldl resStep [] := rfl

lemma only_in_range_fst_nodup (S : Sudoku) (rng : List Cell) :
    ((S.only_in_range rng).map Prod.fst).Nodup :=
  resFold_fst_nodup _ [] List.nodup_nil

lemma only_in_range_snd_nodup (S : Sudoku) (rng : List Cell) :
    ((S.only_in_range rng).map Prod.snd).Nodup := by
  apply resFold_snd_nodup _ [] List.nodup_nil List.nodup_nil
    (found_keys_nodup S rng)
  intro w hw
  cases hw

lemma only_in_range_found_mem {S : Sudoku} {rng : List Cell}
    {p : Cell × ℕ} (hp : p ∈ S.only_in_range rng) :
    (p.2, some p.1) ∈ (S.scanPairs rng).foldl foundStep [] :=
  resFold_mem (M := (S.scanPairs rng).foldl foundStep []) _ []
    (fun r hr => absurd hr (List.not_mem_nil r)) (fun _ hq => hq) p hp

lemma only_in_range_occ {S : Sudoku} {rng : List Cell} {p : Cell × ℕ}
    (hp : p ∈ S.only_in_range rng) : occCells S rng p.2 = [p.1] := by
  have hfound := only_in_range_found_mem hp
  have hlk : lookupKey p.2 ((S.scanPairs rng).foldl foundStep []) =
      some (some p.1) :=
    lookupKey_of_mem_nodup (found_keys_nodup S rng) hfound
  rw [found_lookup] at hlk
  rw [← occPairs_scanPairs]
  exact tallyOf_eq_some_some.mp hlk

lemma only_in_range_mem {S : Sudoku} {rng : List Cell} {p : Cell × ℕ}
    (hp : p ∈ S.only_in_range rng) :
    p.1 ∈ rng ∧ p.2 ∈ S.poss p.1.1 p.1.2 := by
  have hocc := only_in_range_occ hp
  rw [← occPairs_scanPairs] at hocc
  have hc : p.1 ∈ occPairs p.2 (S.scanPairs rng) := by
    rw [hocc]; exact List.mem_singleton_self _
  exact scanPairs_mem (occPairs_mem hc)

lemma only_in_range_lookup (S : Sudoku) (rng : List Cell) (c : Cell) :
    lookupKey c (S.only_in_range rng) =
      (uniqueValsAt S rng c).getLast? := by
  rw [only_in_range_eq, resFold_lookup c _ []]
  have hkeys : (((S.scanPairs rng).foldl foundStep []).filter
        (fun q => decide (q.2 = some c))).map Prod.fst =
      uniqueValsAt S rng c := by
    unfold uniqueValsAt
    rw [← found_keys, List.filter_map]
    congr 1
    apply List.filter_congr
    intro q hq
    have hlk : lookupKey q.1 ((S.scanPairs rng).foldl foundStep []) =
        some q.2 :=
      lookupKey_of_mem_nodup (found_keys_nodup S rng) hq
    rw [found_lookup] at hlk
    by_cases h : q.2 = some c
    · have hocc : occCells S rng q.1 = [c] := by
        rw [← occPairs_scanPairs]
        apply tallyOf_eq_some_some.mp
        rw [hlk, h]
      simp [h, hocc]
    · have hocc : occCells S rng q.1 ≠ [c] := by
        intro he
        apply h
        rw [← occPairs_scanPairs] at he
        have h2 : tallyOf (occPairs q.1 (S.scanPairs rng)) =
            some (some c) := tallyOf_eq_some_some.mpr he
        rw [hlk] at h2
        injection h2
      simp [h, hocc]
  rw [← hkeys, List.getLast?_map]
  cases hfl : (((S.scanPairs rng).foldl foundStep []).filter
      (fun q => decide (q.2 = some c))).getLast? with
  | none => rfl
  | some p => rfl

lemma only_in_range_complete {S : Sudoku} {rng : List Cell} {v : ℕ}
    {c : Cell} (h : occCells S rng v = [c]) :
    (lookupKey c (S.only_in_range rng)).isSome = true := by
  rw [only_in_range_lookup, List.getLast?_isSome]
  intro hnil
  have hv1 : v ∈ scanOrder S rng := by
    unfold scanOrder
    rw [pyDedup_mem]
    have hc : c ∈ occPairs v (S.scanPairs rng) := by
      rw [occPairs_scanPairs, h]; exact List.mem_singleton_self _
    exact List.mem_map.mpr ⟨(v, c), occPairs_mem hc, rfl⟩
  have hv2 : v ∈ uniqueValsAt S rng c := by
    unfold uniqueValsAt
    rw [List.mem_filter]
    exact ⟨hv1, by simpa using h⟩
  rw [hnil] at hv2
  cases hv2

end Sudoku

namespace Sudoku

/-- Applying a list of discovered assignments whose cells are in range,
pairwise distinct, with pairwise distinct values all drawn from the current
candidate store, preserves the candidate-store invariant and the
grid-uniqueness invariant, and fills exactly one empty cell per item. -/
lemma applyItems_spec (items : List (Cell × ℕ)) :
    ∀ T : Sudoku, 0 < T.m → 0 < T.n → T.WF →
      (∀ p ∈ items, p.1.1 < T.N ∧ p.1.2 < T.N ∧
        p.2 ∈ T.poss p.1.1 p.1.2) →
      (items.map Prod.fst).Nodup → (items.map Prod.snd).Nodup →
      (T.applyItems items).m = T.m ∧ (T.applyItems items).n = T.n ∧
      (T.applyItems items).WF ∧
      (T.applyItems items).emptyCount + items.length = T.emptyCount ∧
      (T.GridOK → (T.applyItems items).GridOK) := by
  induction items with
  | nil =>
    intro T _ _ hWF _ _ _
    exact ⟨rfl, rfl, hWF, by simp [applyItems], fun h => h⟩
  | cons p rest ih =>
    intro T hm hn hWF hitems hfst hsnd
    obtain ⟨hp1, hp2, hp3⟩ := hitems p (List.mem_cons_self p rest)
    have hposs : p.2 ∈ T.possible p.1.1 p.1.2 := by
      rw [← hWF p.1.1 hp1 p.1.2 hp2]; exact hp3
    obtain ⟨hgrid0, hv1, _⟩ := possible_props hposs
    rw [List.map_cons, List.nodup_cons] at hfst hsnd
    have hWF1 : (T.set p.1.1 p.1.2 p.2).WF :=
      set_WF hm hn hWF hp1 hp2 hgrid0 hv1
    have hitems1 : ∀ q ∈ rest, q.1.1 < (T.set p.1.1 p.1.2 p.2).N ∧
        q.1.2 < (T.set p.1.1 p.1.2 p.2).N ∧
        q.2 ∈ (T.set p.1.1 p.1.2 p.2).poss q.1.1 q.1.2 := by
      intro q hq
      obtain ⟨hq1, hq2, hq3⟩ := hitems q (List.mem_cons_of_mem p hq)
      refine ⟨hq1, hq2, ?_⟩
      have hqc : ¬(q.1.1 = p.1.1 ∧ q.1.2 = p.1.2) := by
        intro hc
        apply hfst.1
        have hqp : q.1 = p.1 := Prod.ext hc.1 hc.2
        exact hqp ▸ List.mem_map.mpr ⟨q, hq, rfl⟩
      rw [set_poss, if_neg hqc]
      by_cases hu : (q.1.1, q.1.2) ∈ T.unitCells p.1.1 p.1.2
      · rw [if_pos hu, Finset.mem_erase]
        refine ⟨?_, hq3⟩
        intro he
        apply hsnd.1
        rw [← he]
        exact List.mem_map.mpr ⟨q, hq, rfl⟩
      · rw [if_neg hu]; exact hq3
    have hrest := ih (T.set p.1.1 p.1.2 p.2) hm hn hWF1 hitems1
      hfst.2 hsnd.2
    have happ : T.applyItems (p :: rest) =
        (T.set p.1.1 p.1.2 p.2).applyItems rest := rfl
    rw [happ]
    refine ⟨hrest.1, hrest.2.1, hrest.2.2.1, ?_, ?_⟩
    · have hcount := hrest.2.2.2.1
      have hstep : (T.set p.1.1 p.1.2 p.2).emptyCount + 1 = T.emptyCount :=
        emptyCount_set hp1 hp2 hgrid0 (by omega)
      simp only [List.length_cons]
      omega
    · intro hOK
      exact hrest.2.2.2.2 (GridOK_set hm hn hOK hp1 hp2 hposs)

/-- All cells scanned by `find_only`'s ranges are in range. -/
lemma rngs_cells_bounded {S : Sudoku} (hm : 0 < S.m) (hn : 0 < S.n) :
    ∀ r ∈ S.rngs, ∀ c ∈ r, c.1 < S.N ∧ c.2 < S.N := by
  intro r hr c hc
  unfold Sudoku.rngs at hr
  rcases List.mem_flatMap.mp hr with ⟨k, hk, hmem⟩
  rw [List.mem_range] at hk
  rcases c with ⟨x, y⟩
  simp only [List.mem_cons, List.mem_singleton, List.not_mem_nil,
    or_false] at hmem
  rcases hmem with h | h | h
  · subst h
    have := mem_row.mp hc
    exact ⟨this.1 ▸ hk, this.2⟩
  · subst h
    have := mem_col.mp hc
    exact ⟨this.2, this.1 ▸ hk⟩
  · subst h
    have hanchor : k % S.m * S.n < S.N := by
      have h1 : k % S.m < S.m := Nat.mod_lt k hm
      have h2 : k % S.m * S.n < S.m * S.n :=
        Nat.mul_lt_mul_of_lt_of_le h1 (le_refl S.n) hn
      exact h2
    exact region_cells_lt hm hn hk hanchor hc

/-- One round of interleaved scanning and assignment preserves the shape,
the candidate-store invariant and the grid-uniqueness invariant, and fills
one empty cell per logged assignment. -/
lemma applyRngsLog_spec (L : List (List Cell)) :
    ∀ T : Sudoku, 0 < T.m → 0 < T.n → T.WF →
      (∀ r ∈ L, ∀ c ∈ r, c.1 < T.N ∧ c.2 < T.N) →
      (T.applyRngsLog L).1.m = T.m ∧ (T.applyRngsLog L).1.n = T.n ∧
      (T.applyRngsLog L).1.WF ∧
      (T.applyRngsLog L).1.emptyCount + (T.applyRngsLog L).2.length =
        T.emptyCount ∧
      (T.GridOK → (T.applyRngsLog L).1.GridOK) := by
  induction L with
  | nil =>
    intro T _ _ hWF _
    exact ⟨rfl, rfl, hWF, by simp [applyRngsLog], fun h => h⟩
  | cons r rest ih =>
    intro T hm hn hWF hbound
    have hprops : ∀ p ∈ T.only_in_range r, p.1.1 < T.N ∧ p.1.2 < T.N ∧
        p.2 ∈ T.poss p.1.1 p.1.2 := by
      intro p hp
      have h1 := only_in_range_mem hp
      have h2 := hbound r (List.mem_cons_self r rest) p.1 h1.1
      exact ⟨h2.1, h2.2, h1.2⟩
    have hI := applyItems_spec (T.only_in_range r) T hm hn hWF hprops
      (only_in_range_fst_nodup T r) (only_in_range_snd_nodup T r)
    have hNe : (T.applyItems (T.only_in_range r)).N = T.N := by
      unfold Sudoku.N
      rw [hI.1, hI.2.1]
    have hbound1 : ∀ r2 ∈ rest, ∀ c ∈ r2,
        c.1 < (T.applyItems (T.only_in_range r)).N ∧
        c.2 < (T.applyItems (T.only_in_range r)).N := by
      intro r2 hr2 c hc
      rw [hNe]
      exact hbound r2 (List.mem_cons_of_mem r hr2) c hc
    have hrest := ih (T.applyItems (T.only_in_range r))
      (by rw [hI.1]; exact hm) (by rw [hI.2.1]; exact hn)
      hI.2.2.1 hbound1
    have hunfold : T.applyRngsLog (r :: rest) =
        (((T.applyItems (T.only_in_range r)).applyRngsLog rest).1,
          T.only_in_range r ++
            ((T.applyItems (T.only_in_range r)).applyRngsLog rest).2) := rfl
    rw [hunfold]
    refine ⟨hrest.1.trans hI.1, hrest.2.1.trans hI.2.1, hrest.2.2.1,
      ?_, ?_⟩
    · simp only [List.length_append]
      have h3 := hrest.2.2.2.1
      have h4 := hI.2.2.2.1
      omega
    · intro hOK
      exact hrest.2.2.2.2 (hI.2.2.2.2 hOK)

lemma solveRound_spec {T : Sudoku} (hm : 0 < T.m) (hn : 0 < T.n)
    (hWF : T.WF) :
    T.solveRound.1.m = T.m ∧ T.solveRound.1.n = T.n ∧
    T.solveRound.1.WF ∧
    T.solveRound.1.emptyCount + T.solveRound.2.length = T.emptyCount ∧
    (T.GridOK → T.solveRound.1.GridOK) :=
  applyRngsLog_spec T.rngs T hm hn hWF (rngs_cells_bounded hm hn)

lemma roundIter_spec {S : Sudoku} (hm : 0 < S.m) (hn : 0 < S.n)
    (hWF : S.WF) :
    ∀ k, (S.roundIter k).m = S.m ∧ (S.roundIter k).n = S.n ∧
      (S.roundIter k).WF := by
  intro k
  induction k with
  | zero => exact ⟨rfl, rfl, hWF⟩
  | succ k ihk =>
    have h := solveRound_spec (T := S.roundIter k)
      (by rw [ihk.1]; exact hm) (by rw [ihk.2.1]; exact hn) ihk.2.2
    exact ⟨h.1.trans ihk.1, h.2.1.trans ihk.2.1, h.2.2.1⟩

lemma roundIter_GridOK {S : Sudoku} (hm : 0 < S.m) (hn : 0 < S.n)
    (hWF : S.WF) (hOK : S.GridOK) :
    ∀ k, (S.roundIter k).GridOK := by
  intro k
  induction k with
  | zero => exact hOK
  | succ k ihk =>
    have hsp := roundIter_spec hm hn hWF k
    exact (solveRound_spec (T := S.roundIter k)
      (by rw [hsp.1]; exact hm) (by rw [hsp.2.1]; exact hn)
      hsp.2.2).2.2.2.2 ihk

lemma roundIter_decrease {S : Sudoku} (hm : 0 < S.m) (hn : 0 < S.n)
    (hWF : S.WF) (k : ℕ)
    (hne : (S.roundIter k).solveRound.2.length ≠ 0) :
    (S.roundIter (k + 1)).emptyCount < (S.roundIter k).emptyCount := by
  have hsp := roundIter_spec hm hn hWF k
  have h := (solveRound_spec (T := S.roundIter k)
    (by rw [hsp.1]; exact hm) (by rw [hsp.2.1]; exact hn) hsp.2.2).2.2.2.1
  show ((S.roundIter k).solveRound.1).emptyCount <
    (S.roundIter k).emptyCount
  omega

lemma roundIter_shift (S : Sudoku) (k : ℕ) :
    S.roundIter (k + 1) = (S.solveRound.1).roundIter k := by
  induction k with
  | zero => rfl
  | succ k ihk =>
    show ((S.roundIter (k + 1)).solveRound).1 = _
    rw [ihk]
    rfl

lemma converge_within (E : ℕ) :
    ∀ S : Sudoku, 0 < S.m → 0 < S.n → S.WF → S.emptyCount ≤ E →
      ∃ r, r ≤ E ∧ (S.roundIter r).solveRound.2.length = 0 := by
  induction E with
  | zero =>
    intro S hm hn hWF hE
    refine ⟨0, le_refl 0, ?_⟩
    have h := (solveRound_spec hm hn hWF).2.2.2.1
    show S.solveRound.2.length = 0
    omega
  | succ E ih =>
    intro S hm hn hWF hE
    by_cases h0 : S.solveRound.2.length = 0
    · exact ⟨0, Nat.zero_le _, h0⟩
    · have h := (solveRound_spec hm hn hWF).2.2.2.1
      have hsp := solveRound_spec hm hn hWF
      have hrec := ih S.solveRound.1 (by rw [hsp.1]; exact hm)
        (by rw [hsp.2.1]; exact hn) hsp.2.2.1 (by omega)
      rcases hrec with ⟨r, hr, hconv⟩
      refine ⟨r + 1, by omega, ?_⟩
      rw [roundIter_shift]
      exact hconv

lemma emptyCount_le (S : Sudoku) : S.emptyCount ≤ S.N ^ 2 := by
  unfold Sudoku.emptyCount
  calc ((Finset.range S.N ×ˢ Finset.range S.N).filter
        (fun p => S.grid p.1 p.2 = 0)).card
      ≤ (Finset.range S.N ×ˢ Finset.range S.N).card :=
        Finset.card_filter_le _ _
    _ = S.N * S.N := by rw [Finset.card_product, Finset.card_range]
    _ = S.N ^ 2 := by ring

lemma solve_converged :
    ∀ (f : ℕ) (T : Sudoku),
      (∃ r, r < f ∧ (T.roundIter r).solveRound.2.length = 0) →
      ((Sudoku.solve f T).solveRound).2.length = 0 := by
  intro f
  induction f with
  | zero =>
    intro T h
    rcases h with ⟨r, hr, _⟩
    omega
  | succ f ih =>
    intro T h
    by_cases h0 : T.solveRound.2.length = 0
    · simp only [solve]
      rw [if_pos h0]
      exact h0
    · rcases h with ⟨r, hr, hconv⟩
      have hr0 : r ≠ 0 := by
        intro he
        subst he
        exact h0 hconv
      obtain ⟨r2, rfl⟩ := Nat.exists_eq_succ_of_ne_zero hr0
      simp only [solve]
      rw [if_neg h0]
      apply ih
      refine ⟨r2, by omega, ?_⟩
      rw [← roundIter_shift]
      exact hconv

lemma applyRngsLog_nil_log (L : List (List Cell)) :
    ∀ T : Sudoku, (T.applyRngsLog L).2 = [] → (T.applyRngsLog L).1 = T := by
  induction L with
  | nil => intro T _; rfl
  | cons r rest ih =>
    intro T h
    have hunfold : T.applyRngsLog (r :: rest) =
        (((T.applyItems (T.only_in_range r)).applyRngsLog rest).1,
          T.only_in_range r ++
            ((T.applyItems (T.only_in_range r)).applyRngsLog rest).2) := rfl
    rw [hunfold] at h ⊢
    have h2 := List.append_eq_nil.mp h
    have hT1 : T.applyItems (T.only_in_range r) = T := by
      rw [h2.1]
      rfl
    rw [hT1] at h2 ⊢
    exact ih T h2.2

lemma solveRound_fix {T : Sudoku} (h : T.solveRound.2 = []) :
    T.solveRound.1 = T :=
  applyRngsLog_nil_log T.rngs T h

lemma solve_fix {T : Sudoku} (h : T.solveRound.2 = []) :
    ∀ f, Sudoku.solve f T = T := by
  intro f
  cases f with
  | zero => rfl
  | succ f =>
    simp only [solve]
    rw [if_pos (by rw [h]; rfl)]

end Sudoku

namespace Sudoku

/-- A legal sequence of `set` operations preserves the candidate-store
invariant. -/
lemma WF_applySets (ops : List (Cell × ℕ)) :
    ∀ S : Sudoku, 0 < S.m → 0 < S.n → S.WF → S.legalSeq ops →
      (S.applySets ops).WF := by
  induction ops with
  | nil => intro S _ _ hWF _; exact hWF
  | cons p rest ih =>
    intro S hm hn hWF hleg
    obtain ⟨h1, h2, h3, h4, _, h6⟩ := hleg
    exact ih (S.set p.1.1 p.1.2 p.2) hm hn
      (set_WF hm hn hWF h1 h2 h3 h4) h6

/-! ### Scan-coverage lemmas (region anchors) -/

lemma anchor_mem_region {S : Sudoku} (hm : 0 < S.m) (hn : 0 < S.n)
    (i j : ℕ) :
    (i / S.m * S.m, j / S.n * S.n) ∈ S.region i j := by
  rw [mem_region]
  omega

lemma scan_region_inj {S : Sudoku} (hm : 0 < S.m) (hn : 0 < S.n)
    {k k2 : ℕ}
    (h : S.region k (k % S.m * S.n) = S.region k2 (k2 % S.m * S.n)) :
    k = k2 := by
  have hmem : (k / S.m * S.m, (k % S.m * S.n) / S.n * S.n) ∈
      S.region k (k % S.m * S.n) := anchor_mem_region hm hn _ _
  rw [h, mem_region_div hm hn] at hmem
  have e1 : k / S.m * S.m / S.m = k / S.m := Nat.mul_div_cancel _ hm
  have e2 : k % S.m * S.n / S.n = k % S.m := Nat.mul_div_cancel _ hn
  have e3 : k2 % S.m * S.n / S.n = k2 % S.m := Nat.mul_div_cancel _ hn
  have hdiv : k / S.m = k2 / S.m := by
    have := hmem.1
    rw [e1] at this
    exact this
  have hmod : k % S.m = k2 % S.m := by
    have h2 := hmem.2
    rw [e2] at h2
    rw [e2, e3] at h2
    exact h2
  have h4 := Nat.div_add_mod k S.m
  have h5 := Nat.div_add_mod k2 S.m
  rw [hdiv, hmod] at h4
  omega

lemma scan_region_surj {S : Sudoku} (hm : 0 < S.m) (hn : 0 < S.n)
    {i j : ℕ} (hi : i < S.N) (hj : j < S.N) :
    ∃ k, k < S.N ∧ S.region k (k % S.m * S.n) = S.region i j := by
  have hdm : i / S.m < S.n := by
    rw [Nat.div_lt_iff_lt_mul hm]
    rw [Sudoku.N, mul_comm] at hi
    exact hi
  have hdn : j / S.n < S.m := by
    rw [Nat.div_lt_iff_lt_mul hn]
    rw [Sudoku.N] at hj
    exact hj
  refine ⟨i / S.m * S.m + j / S.n, ?_, ?_⟩
  · calc i / S.m * S.m + j / S.n < i / S.m * S.m + S.m := by omega
      _ = (i / S.m + 1) * S.m := by ring
      _ ≤ S.n * S.m := Nat.mul_le_mul_right _ hdm
      _ = S.N := by rw [Sudoku.N, mul_comm]
  · have hkd : (i / S.m * S.m + j / S.n) / S.m = i / S.m := by
      rw [mul_comm (i / S.m) S.m, Nat.mul_add_div hm,
        Nat.div_eq_of_lt hdn, add_zero]
    have hkm : (i / S.m * S.m + j / S.n) % S.m = j / S.n := by
      rw [mul_comm (i / S.m) S.m, Nat.mul_add_mod,
        Nat.mod_eq_of_lt hdn]
    have hcol : (i / S.m * S.m + j / S.n) % S.m * S.n / S.n = j / S.n := by
      rw [hkm, Nat.mul_div_cancel _ hn]
    unfold Sudoku.region
    rw [hkd, hcol]

lemma rngs_length (S : Sudoku) : S.rngs.length = 3 * S.N := by
  unfold Sudoku.rngs
  rw [List.length_flatMap]
  rw [show List.map
      (List.length ∘ fun k => [S.row k, S.col k, S.region k (k % S.m * S.n)])
      (List.range S.N) = List.replicate S.N 3 from ?_]
  · rw [List.sum_replicate, smul_eq_mul]
    ring
  · rw [List.eq_replicate_iff]
    constructor
    · rw [List.length_map, List.length_range]
    · intro b hb
      rcases List.mem_map.mp hb with ⟨k, _, he⟩
      rw [← he]
      rfl

lemma row_mem_rngs {S : Sudoku} {k : ℕ} (hk : k < S.N) :
    S.row k ∈ S.rngs := by
  unfold Sudoku.rngs
  rw [List.mem_flatMap]
  exact ⟨k, List.mem_range.mpr hk, by simp⟩

lemma col_mem_rngs {S : Sudoku} {k : ℕ} (hk : k < S.N) :
    S.col k ∈ S.rngs := by
  unfold Sudoku.rngs
  rw [List.mem_flatMap]
  exact ⟨k, List.mem_range.mpr hk, by simp⟩

lemma region_mem_rngs {S : Sudoku} {k : ℕ} (hk : k < S.N) :
    S.region k (k % S.m * S.n) ∈ S.rngs := by
  unfold Sudoku.rngs
  rw [List.mem_flatMap]
  exact ⟨k, List.mem_range.mpr hk, by simp⟩

/-- The round with interleaved application is exactly the left fold that,
for each range in turn, collects that range's scan against the state at the
start of the range and applies it before moving on. -/
lemma applyRngsLog_foldl (L : List (List Cell)) :
    ∀ (T : Sudoku) (acc : List (Cell × ℕ)),
      L.foldl (fun st r =>
          (st.1.applyItems (st.1.only_in_range r),
            st.2 ++ st.1.only_in_range r)) (T, acc) =
        ((T.applyRngsLog L).1, acc ++ (T.applyRngsLog L).2) := by
  induction L with
  | nil =>
    intro T acc
    show (T, acc) = ((T.applyRngsLog []).1, acc ++ (T.applyRngsLog []).2)
    rw [show T.applyRngsLog [] = (T, []) from rfl, List.append_nil]
  | cons r rest ih =>
    intro T acc
    simp only [List.foldl_cons]
    rw [ih]
    apply Prod.ext
    · rfl
    · show (acc ++ T.only_in_range r) ++
          ((T.applyItems (T.only_in_range r)).applyRngsLog rest).2 =
        acc ++ (T.applyRngsLog (r :: rest)).2
      rw [List.append_assoc]
      rfl

end Sudoku

/-! ### Construction / size-inference lemmas -/

lemma nearestSqrt_sq (N : ℕ) : nearestSqrt (N * N) = N := by
  unfold nearestSqrt
  rw [Nat.sqrt_eq]
  rw [if_pos (Nat.le_add_right _ _)]

lemma adjust_sqrt (x : ℕ) :
    (if nearestSqrt x * nearestSqrt x > x then nearestSqrt x - 1
     else nearestSqrt x) = Nat.sqrt x := by
  unfold nearestSqrt
  by_cases h : x ≤ Nat.sqrt x * Nat.sqrt x + Nat.sqrt x
  · rw [if_pos h]
    rw [if_neg (by have := Nat.sqrt_le x; omega)]
  · rw [if_neg h]
    have h2 : x < (Nat.sqrt x + 1) * (Nat.sqrt x + 1) :=
      Nat.lt_succ_sqrt x
    have h3 : (Nat.sqrt x + 1) * (Nat.sqrt x + 1) =
        Nat.sqrt x * Nat.sqrt x + 2 * Nat.sqrt x + 1 := by ring
    rw [if_pos (by omega)]
    omega

lemma guessLoop_le (N : ℕ) : ∀ n, guessLoop N n ≤ n := by
  intro n
  induction n with
  | zero => exact Nat.le_refl 0
  | succ n ih =>
    unfold guessLoop
    by_cases h : n + 1 ≤ 1 ∨ N % (n + 1) = 0
    · rw [if_pos h]
    · rw [if_neg h]
      omega

lemma guessLoop_spec (N : ℕ) : ∀ n,
    (N % guessLoop N n = 0 ∨ guessLoop N n ≤ 1) ∧
    (∀ e, guessLoop N n < e → e ≤ n → N % e ≠ 0) := by
  intro n
  induction n with
  | zero =>
    constructor
    · right
      show (0 : ℕ) ≤ 1
      omega
    · intro e h1 h2
      exfalso
      have h0 : guessLoop N 0 = 0 := rfl
      omega
  | succ n ih =>
    unfold guessLoop
    by_cases h : n + 1 ≤ 1 ∨ N % (n + 1) = 0
    · rw [if_pos h]
      constructor
      · rcases h with h | h
        · right; exact h
        · left; exact h
      · intro e h1 h2
        omega
    · rw [if_neg h]
      push_neg at h
      constructor
      · exact ih.1
      · intro e h1 h2
        by_cases he : e = n + 1
        · subst he
          exact h.2
        · exact ih.2 e h1 (by omega)

lemma guessN_eq (Ng : ℕ) : guessN Ng = guessLoop Ng (Nat.sqrt Ng) := by
  unfold guessN
  rw [adjust_sqrt]

lemma toMatrix_flat_ok {l : List ℕ} {N : ℕ} (hlen : l.length = N * N) :
    toMatrix (.flat l) = .ok (N, fun i j => l.getD (i * N + j) 0) := by
  unfold toMatrix
  dsimp only
  rw [hlen, nearestSqrt_sq]
  rw [if_neg (by omega)]

lemma toMatrix_mat_ok {rows : List (List ℕ)}
    (hsq : ∀ r ∈ rows, r.length = rows.length) :
    toMatrix (.mat rows) =
      .ok (rows.length, fun i j => (rows.getD i []).getD j 0) := by
  have hc : (rows.headD []).length = rows.length := by
    cases rows with
    | nil => rfl
    | cons r rest => exact hsq r (List.mem_cons_self r rest)
  unfold toMatrix
  dsimp only
  rw [if_neg (by
    rw [List.any_eq_true]
    rintro ⟨r, hr, hne⟩
    rw [bne_iff_ne, hc] at hne
    exact hne (hsq r hr))]
  rw [if_neg (by rw [hc]; omega)]

lemma initSudoku_infer {g : GridArg} {Ng : ℕ} {gfun : ℕ → ℕ → ℕ}
    (hg : toMatrix g = .ok (Ng, gfun)) :
    initSudoku none none (some g) =
      if guessN Ng ≤ 1 then .error .sizeErr
      else .ok ⟨Ng / guessN Ng, guessN Ng, gfun, fun _ _ => ∅⟩ := by
  unfold initSudoku
  dsimp only
  rw [hg]

lemma initSudoku_msize {g : GridArg} {Ng : ℕ} {gfun : ℕ → ℕ → ℕ}
    {m n : ℕ} (hg : toMatrix g = .ok (Ng, gfun)) :
    initSudoku (some (m + 1)) (some (n + 1)) (some g) =
      if (m + 1) * (n + 1) ≠ Ng then .error .sizeErr
      else .ok ⟨m + 1, n + 1, gfun, fun _ _ => ∅⟩ := by
  unfold initSudoku
  dsimp only
  rw [hg]
  rfl

namespace Sudoku

lemma applySets_m (ops : List (Cell × ℕ)) :
    ∀ S : Sudoku, (S.applySets ops).m = S.m := by
  induction ops with
  | nil => intro S; rfl
  | cons p rest ih => intro S; exact ih (S.set p.1.1 p.1.2 p.2)

lemma applySets_n (ops : List (Cell × ℕ)) :
    ∀ S : Sudoku, (S.applySets ops).n = S.n := by
  induction ops with
  | nil => intro S; rfl
  | cons p rest ih => intro S; exact ih (S.set p.1.1 p.1.2 p.2)

lemma applySets_N (ops : List (Cell × ℕ)) (S : Sudoku) :
    (S.applySets ops).N = S.N := by
  unfold Sudoku.N
  rw [applySets_m, applySets_n]

lemma row_scan_inj {S : Sudoku} {k k2 : ℕ} (hk : k < S.N)
    (h : S.row k = S.row k2) : k = k2 := by
  have h0 : (S.row k)[0]? = (S.row k2)[0]? := by rw [h]
  unfold Sudoku.row at h0
  rw [List.getElem?_map, List.getElem?_map,
    List.getElem?_range (by omega : 0 < S.N)] at h0
  simp only [Option.map_some'] at h0
  injection h0 with h1
  exact (congrArg Prod.fst h1)

lemma col_scan_inj {S : Sudoku} {k k2 : ℕ} (hk : k < S.N)
    (h : S.col k = S.col k2) : k = k2 := by
  have h0 : (S.col k)[0]? = (S.col k2)[0]? := by rw [h]
  unfold Sudoku.col at h0
  rw [List.getElem?_map, List.getElem?_map,
    List.getElem?_range (by omega : 0 < S.N)] at h0
  simp only [Option.map_some'] at h0
  injection h0 with h1
  exact (congrArg Prod.snd h1)

end Sudoku

/-! ### The claims -/

/-- C1: Candidate-store correctness: after the candidate dictionary is
built from a grid by `make_poss_dict` and any sequence of `set`
operations with legal values (in-range empty targets, values in `[1, N]`)
is performed, every in-range cell's stored candidate set equals the full
recomputation `possible(i, j)`: empty for a filled cell, and `{1..N}`
minus every value present in the cell's row, column and region for an
empty cell. -/
theorem claim_C1_candidate_store_correctness (S : Sudoku)
    (hm : 0 < S.m) (hn : 0 < S.n) (ops : List (Cell × ℕ))
    (hops : S.make_poss_dict.legalSeq ops) :
    ∀ x < S.N, ∀ y < S.N,
      (S.make_poss_dict.applySets ops).poss x y =
        (S.make_poss_dict.applySets ops).possible x y := by
  have h := Sudoku.WF_applySets ops S.make_poss_dict hm hn
    (Sudoku.make_poss_dict_WF S) hops
  intro x hx y hy
  have hN : (S.make_poss_dict.applySets ops).N = S.N :=
    Sudoku.applySets_N ops S.make_poss_dict
  exact h x (by rw [hN]; exact hx) y (by rw [hN]; exact hy)

theorem claim_C1_witness :
    (mkSudoku 2 2 [[0,0,0,0],[0,0,0,0],[0,0,0,0],[0,0,0,0]]
      ).make_poss_dict.legalSeq [((0, 0), 1), ((1, 2), 3)] ∧
    ∀ x < (mkSudoku 2 2 [[0,0,0,0],[0,0,0,0],[0,0,0,0],[0,0,0,0]]).N,
      ∀ y < (mkSudoku 2 2 [[0,0,0,0],[0,0,0,0],[0,0,0,0],[0,0,0,0]]).N,
      ((mkSudoku 2 2 [[0,0,0,0],[0,0,0,0],[0,0,0,0],[0,0,0,0]]
        ).make_poss_dict.applySets [((0, 0), 1), ((1, 2), 3)]).poss x y =
      ((mkSudoku 2 2 [[0,0,0,0],[0,0,0,0],[0,0,0,0],[0,0,0,0]]
        ).make_poss_dict.applySets [((0, 0), 1), ((1, 2), 3)]).possible x y :=
  ⟨by decide, claim_C1_candidate_store_correctness _ (by decide) (by decide)
    _ (by decide)⟩

/-- C2: Grid-uniqueness invariant: starting from a grid with no duplicate
value among the filled cells of any row, column or region (and a
consistent candidate store), the state after every round of the solver
loop still satisfies that invariant; moreover every single assignment the
loop can perform — a `set` of a value drawn from the target's candidate
set — preserves the invariant. -/
theorem claim_C2_grid_uniqueness (S : Sudoku) (hm : 0 < S.m)
    (hn : 0 < S.n) (hWF : S.WF) (hOK : S.GridOK) :
    (∀ k : ℕ, (S.roundIter k).GridOK) ∧
    (∀ T : Sudoku, 0 < T.m → 0 < T.n → T.GridOK →
      ∀ i j v : ℕ, i < T.N → j < T.N → v ∈ T.possible i j →
        (T.set i j v).GridOK) :=
  ⟨fun k => Sudoku.roundIter_GridOK hm hn hWF hOK k,
   fun _ hm2 hn2 hOK2 _ _ _ hi hj hv =>
     Sudoku.GridOK_set hm2 hn2 hOK2 hi hj hv⟩

theorem claim_C2_witness :
    (mkSudoku 2 2 [[0,3,1,0],[0,1,0,0],[0,0,3,0],[0,0,0,0]]).WF ∧
    (mkSudoku 2 2 [[0,3,1,0],[0,1,0,0],[0,0,3,0],[0,0,0,0]]).GridOK ∧
    ((mkSudoku 2 2 [[0,3,1,0],[0,1,0,0],[0,0,3,0],[0,0,0,0]]
      ).roundIter 1).GridOK :=
  ⟨by decide, by decide,
   (claim_C2_grid_uniqueness _ (by decide) (by decide) (by decide)
     (by decide)).1 1⟩

/-- C3 counterexample: on this 4×4 grid the first round of the solver
applies the assignment `((2,0), 1)`, but that pair is not among the pairs
of the full scan `find_only` computed against the grid and candidate state
as they were at the start of the round: an assignment applied earlier in
the same round changed a later range's scan, so the round is not a
snapshot of the start-of-round state. -/
theorem claim_C3_counterexample :
    ((((2, 0), 1) : Cell × ℕ) ∈
      ((mkSudoku 2 2 [[0,3,1,0],[0,1,0,0],[0,0,3,0],[0,0,0,0]]
        ).solveRound).2) ∧
    ((((2, 0), 1) : Cell × ℕ) ∉
      (mkSudoku 2 2 [[0,3,1,0],[0,1,0,0],[0,0,3,0],[0,0,0,0]]
        ).find_only) := by
  constructor
  · decide
  · decide

/-- C3 (amended): snapshot semantics holds per range, not per round: a
round of the solver equals the left fold over the ranges in which each
range's forced assignments are collected against the state at the start of
that range's scan and applied before the next range is scanned — so
assignments applied for earlier ranges of a round do influence later
ranges' scans in the same round. -/
theorem claim_C3_per_range_snapshot (S : Sudoku) :
    S.solveRound = S.rngs.foldl
      (fun st r => (st.1.applyItems (st.1.only_in_range r),
        st.2 ++ st.1.only_in_range r)) (S, []) := by
  rw [Sudoku.applyRngsLog_foldl S.rngs S []]
  rfl

/-- C4: Unique-placement scan correctness: `only_in_range(R)` maps a cell
`c` to a value exactly when some value is uniquely placed at `c`; every
pair of the result is a value occurring in the candidate set of exactly
one cell of `R` (so values occurring in zero or two-plus cells are
absent); every unique placement's cell is present in the result; and the
entry of a cell is the last value, in scan discovery order, among the
values uniquely placed at it — the later-found value wins when one cell is
the unique location of two different values. -/
theorem claim_C4_unique_placement_scan (S : Sudoku) (rng : List Cell) :
    (∀ c : Cell, lookupKey c (S.only_in_range rng) =
      (uniqueValsAt S rng c).getLast?) ∧
    (∀ p ∈ S.only_in_range rng, occCells S rng p.2 = [p.1]) ∧
    (∀ (v : ℕ) (c : Cell), occCells S rng v = [c] →
      (lookupKey c (S.only_in_range rng)).isSome = true) :=
  ⟨fun c => Sudoku.only_in_range_lookup S rng c,
   fun _ hp => Sudoku.only_in_range_occ hp,
   fun _ _ h => Sudoku.only_in_range_complete h⟩

theorem claim_C4_witness :
    occCells (mkSudoku 1 1 [[0]]) [(0, 0)] 1 = [(0, 0)] ∧
    (lookupKey ((0, 0) : Cell)
      ((mkSudoku 1 1 [[0]]).only_in_range [(0, 0)])).isSome = true :=
  ⟨by decide,
   (claim_C4_unique_placement_scan (mkSudoku 1 1 [[0]]) [(0, 0)]).2.2
     1 (0, 0) (by decide)⟩

/-- C5: Scan coverage: `find_only` scans `3N` ranges — for each `k < N` the
row `k`, the column `k` and the region anchored through `(k, (k mod m)·n)`,
each present in the scan list; distinct `k` give distinct rows, distinct
columns and distinct regions; and the `N` scanned regions designate each of
the `N` distinct `m×n` regions of the grid exactly once (every cell's
region is scanned, and no region twice). -/
theorem claim_C5_scan_coverage (S : Sudoku) (hm : 0 < S.m)
    (hn : 0 < S.n) :
    S.rngs.length = 3 * S.N ∧
    (∀ k < S.N, S.row k ∈ S.rngs ∧ S.col k ∈ S.rngs ∧
      S.region k (k % S.m * S.n) ∈ S.rngs) ∧
    (∀ k < S.N, ∀ k2 < S.N, S.row k = S.row k2 → k = k2) ∧
    (∀ k < S.N, ∀ k2 < S.N, S.col k = S.col k2 → k = k2) ∧
    (∀ k < S.N, ∀ k2 < S.N,
      S.region k (k % S.m * S.n) = S.region k2 (k2 % S.m * S.n) →
        k = k2) ∧
    (∀ i < S.N, ∀ j < S.N, ∃ k, k < S.N ∧
      S.region k (k % S.m * S.n) = S.region i j) := by
  refine ⟨Sudoku.rngs_length S, ?_, ?_, ?_, ?_, ?_⟩
  · intro k hk
    exact ⟨Sudoku.row_mem_rngs hk, Sudoku.col_mem_rngs hk,
      Sudoku.region_mem_rngs hk⟩
  · intro k hk k2 _ h
    exact Sudoku.row_scan_inj hk h
  · intro k hk k2 _ h
    exact Sudoku.col_scan_inj hk h
  · intro k _ k2 _ h
    exact Sudoku.scan_region_inj hm hn h
  · intro i hi j hj
    exact Sudoku.scan_region_surj hm hn hi hj

theorem claim_C5_witness :
    0 < (mkSudoku 2 2 [[0,0,0,0],[0,0,0,0],[0,0,0,0],[0,0,0,0]]).m ∧
    (mkSudoku 2 2 [[0,0,0,0],[0,0,0,0],[0,0,0,0],[0,0,0,0]]
      ).rngs.length =
      3 * (mkSudoku 2 2 [[0,0,0,0],[0,0,0,0],[0,0,0,0],[0,0,0,0]]).N :=
  ⟨by decide,
   (claim_C5_scan_coverage _ (by decide) (by decide)).1⟩

/-- C6 counterexample: on the 1×1 all-empty grid (`N = 1`, a well-formed
starting state built by the constructor's explicit-size path) the first
round applies an assignment, so the loop has not reached the converged
state within `N² = 1` rounds — it converges only at round 2, refuting the
claimed `N²` bound. -/
theorem claim_C6_counterexample :
    ¬ ∃ r, r < (mkSudoku 1 1 [[0]]).N ^ 2 ∧
      (((mkSudoku 1 1 [[0]]).roundIter r).solveRound).2.length = 0 := by
  decide

/-- C6 (amended): termination of the solver loop: for every well-formed
starting state, every round that applies at least one assignment strictly
decreases the number of empty cells; some round of index `r ≤ N²` applies
zero assignments (so the loop reaches the converged state within at most
`N² + 1` rounds, the bound the 1×1 counterexample shows to be tight in the
`+1`); and running `solve` with fuel `N² + 1` reaches a converged state. -/
theorem claim_C6_termination (S : Sudoku) (hm : 0 < S.m) (hn : 0 < S.n)
    (hWF : S.WF) :
    (∀ k, ((S.roundIter k).solveRound).2.length ≠ 0 →
      (S.roundIter (k + 1)).emptyCount < (S.roundIter k).emptyCount) ∧
    (∃ r, r ≤ S.N ^ 2 ∧ ((S.roundIter r).solveRound).2.length = 0) ∧
    ((Sudoku.solve (S.N ^ 2 + 1) S).solveRound).2.length = 0 := by
  have hconv := Sudoku.converge_within (S.N ^ 2) S hm hn hWF
    (Sudoku.emptyCount_le S)
  refine ⟨fun k => Sudoku.roundIter_decrease hm hn hWF k, hconv, ?_⟩
  rcases hconv with ⟨r, hr, hc⟩
  exact Sudoku.solve_converged (S.N ^ 2 + 1) S ⟨r, by omega, hc⟩

theorem claim_C6_witness :
    (mkSudoku 1 1 [[0]]).WF ∧
    ∃ r, r ≤ (mkSudoku 1 1 [[0]]).N ^ 2 ∧
      (((mkSudoku 1 1 [[0]]).roundIter r).solveRound).2.length = 0 :=
  ⟨by decide,
   (claim_C6_termination _ (by decide) (by decide) (by decide)).2.1⟩

/-- C7: Construction from a matrix determines and validates `(m, n)`: with
no explicit size, a flat `N²`-element grid infers `n` as the largest
divisor of `N` that is at most `⌊√N⌋` and `m = N / n`, and fails with the
specification's `SizeError` when no divisor in `[2, ⌊√N⌋]` exists (e.g.
`N` prime); a flat 36-element matrix therefore yields `N = 6` with
`m·n = 6` while a 49-element grid fails; and an explicit `(m, n)` supplied
alongside a square matrix fails with `SizeError` when `m·n` differs from
the matrix side length. -/
theorem claim_C7_size_inference :
    (∀ (l : List ℕ) (N : ℕ), l.length = N * N →
      ((∃ d, 2 ≤ d ∧ d ∣ N ∧ d ≤ Nat.sqrt N) →
        ∃ D, initSudoku none none (some (.flat l)) = .ok D ∧
          D.N = N ∧ D.m * D.n = N ∧ D.n ∣ N ∧ D.n ≤ Nat.sqrt N ∧
          (∀ e, e ∣ N → e ≤ Nat.sqrt N → e ≤ D.n) ∧ D.m = N / D.n) ∧
      ((¬ ∃ d, 2 ≤ d ∧ d ∣ N ∧ d ≤ Nat.sqrt N) →
        initSudoku none none (some (.flat l)) = .error .sizeErr)) ∧
    (∀ (rows : List (List ℕ)) (m n : ℕ), 1 ≤ m → 1 ≤ n →
      (∀ r ∈ rows, r.length = rows.length) → m * n ≠ rows.length →
      initSudoku (some m) (some n) (some (.mat rows)) =
        .error .sizeErr) := by
  constructor
  · intro l N hlen
    have hmat := toMatrix_flat_ok hlen
    have hg := guessLoop_spec N (Nat.sqrt N)
    have hgle := guessLoop_le N (Nat.sqrt N)
    constructor
    · rintro ⟨d, hd2, hdvd, hdle⟩
      have hge2 : 2 ≤ guessLoop N (Nat.sqrt N) := by
        by_contra hlt
        push_neg at hlt
        exact hg.2 d (by omega) hdle (Nat.mod_eq_zero_of_dvd hdvd)
      have hgdvd : guessLoop N (Nat.sqrt N) ∣ N := by
        rcases hg.1 with h | h
        · exact Nat.dvd_of_mod_eq_zero h
        · omega
      refine ⟨⟨N / guessLoop N (Nat.sqrt N), guessLoop N (Nat.sqrt N),
        fun i j => l.getD (i * N + j) 0, fun _ _ => ∅⟩,
        ?_, ?_, ?_, hgdvd, hgle, ?_, rfl⟩
      · rw [initSudoku_infer hmat, guessN_eq]
        rw [if_neg (by omega)]
      · show N / guessLoop N (Nat.sqrt N) * guessLoop N (Nat.sqrt N) = N
        exact Nat.div_mul_cancel hgdvd
      · show N / guessLoop N (Nat.sqrt N) * guessLoop N (Nat.sqrt N) = N
        exact Nat.div_mul_cancel hgdvd
      · intro e hedvd hele
        by_contra hgt
        push_neg at hgt
        exact hg.2 e hgt hele (Nat.mod_eq_zero_of_dvd hedvd)
    · intro hno
      rw [initSudoku_infer hmat, guessN_eq]
      rw [if_pos ?_]
      by_contra h2
      push_neg at h2
      have hdvd : guessLoop N (Nat.sqrt N) ∣ N := by
        rcases hg.1 with h | h
        · exact Nat.dvd_of_mod_eq_zero h
        · omega
      exact hno ⟨guessLoop N (Nat.sqrt N), by omega, hdvd, hgle⟩
  · intro rows m n hm1 hn1 hsq hne
    obtain ⟨m2, rfl⟩ : ∃ m2, m = m2 + 1 := ⟨m - 1, by omega⟩
    obtain ⟨n2, rfl⟩ : ∃ n2, n = n2 + 1 := ⟨n - 1, by omega⟩
    rw [initSudoku_msize (toMatrix_mat_ok hsq)]
    rw [if_pos hne]

theorem claim_C7_witness :
    (List.replicate 36 (0 : ℕ)).length = 6 * 6 ∧
    (∃ D, initSudoku none none
        (some (.flat (List.replicate 36 (0 : ℕ)))) = .ok D ∧
      D.N = 6 ∧ D.m * D.n = 6 ∧ D.n ∣ 6 ∧ D.n ≤ Nat.sqrt 6 ∧
      (∀ e, e ∣ 6 → e ≤ Nat.sqrt 6 → e ≤ D.n) ∧ D.m = 6 / D.n) ∧
    initSudoku none none (some (.flat (List.replicate 49 (0 : ℕ)))) =
      .error .sizeErr := by
  have hs6 : Nat.sqrt 6 = 2 := by
    have h1 : 2 ≤ Nat.sqrt 6 := Nat.le_sqrt.mpr (by omega)
    have h2 : Nat.sqrt 6 < 3 := Nat.sqrt_lt.mpr (by omega)
    omega
  have hs7 : Nat.sqrt 7 = 2 := by
    have h1 : 2 ≤ Nat.sqrt 7 := Nat.le_sqrt.mpr (by omega)
    have h2 : Nat.sqrt 7 < 3 := Nat.sqrt_lt.mpr (by omega)
    omega
  refine ⟨by decide, ?_, ?_⟩
  · exact (claim_C7_size_inference.1 (List.replicate 36 0) 6
      (by decide)).1 ⟨2, by omega, by decide, by rw [hs6]⟩
  · refine (claim_C7_size_inference.1 (List.replicate 49 0) 7
      (by decide)).2 ?_
    rintro ⟨d, hd2, hdvd, hdle⟩
    rw [hs7] at hdle
    have hd : d = 2 := by omega
    subst hd
    rcases hdvd with ⟨c, hc⟩
    omega

/-- C8: Assignment contract: `set(i, j, value)` guarded by its assertion
(`setChecked`) fails with the specification's `AssignmentError` when the
target cell is already filled, and under its precondition — target cell
empty and value in `[1, N]` — succeeds and establishes
`valueAt(i, j) = value`. -/
theorem claim_C8_assignment_contract (S : Sudoku) (i j v : ℕ) :
    (S.grid i j ≠ 0 → S.setChecked i j v = .error .assignErr) ∧
    (S.grid i j = 0 → 1 ≤ v → v ≤ S.N →
      ∃ T, S.setChecked i j v = .ok T ∧ T.grid i j = v) := by
  constructor
  · intro h
    unfold Sudoku.setChecked
    rw [if_neg h]
  · intro h _ _
    refine ⟨S.set i j v, ?_, Sudoku.set_grid_self S i j v⟩
    unfold Sudoku.setChecked
    rw [if_pos h]

theorem claim_C8_witness :
    ((mkSudoku 1 1 [[1]]).grid 0 0 ≠ 0 ∧
      (mkSudoku 1 1 [[1]]).setChecked 0 0 1 = .error .assignErr) ∧
    ((mkSudoku 1 1 [[0]]).grid 0 0 = 0 ∧
      ∃ T, (mkSudoku 1 1 [[0]]).setChecked 0 0 1 = .ok T ∧
        T.grid 0 0 = 1) :=
  ⟨⟨by decide, (claim_C8_assignment_contract _ 0 0 1).1 (by decide)⟩,
   ⟨by decide, (claim_C8_assignment_contract _ 0 0 1).2 (by decide)
     (by decide) (by decide)⟩⟩

/-- C9: Idempotence at the fixpoint: once `solve` has run to convergence
(fuel `N² + 1` suffices by termination), the next round applies zero
assignments, running `solve` again with any fuel returns the very same
state, and the round leaves the grid and the candidate store unchanged. -/
theorem claim_C9_idempotence (S : Sudoku) (hm : 0 < S.m) (hn : 0 < S.n)
    (hWF : S.WF) :
    ((Sudoku.solve (S.N ^ 2 + 1) S).solveRound).2 = [] ∧
    (∀ f, Sudoku.solve f (Sudoku.solve (S.N ^ 2 + 1) S) =
      Sudoku.solve (S.N ^ 2 + 1) S) ∧
    ((Sudoku.solve (S.N ^ 2 + 1) S).solveRound).1 =
      Sudoku.solve (S.N ^ 2 + 1) S := by
  have hconv := Sudoku.converge_within (S.N ^ 2) S hm hn hWF
    (Sudoku.emptyCount_le S)
  rcases hconv with ⟨r, hr, hc⟩
  have hlen : ((Sudoku.solve (S.N ^ 2 + 1) S).solveRound).2.length = 0 :=
    Sudoku.solve_converged _ S ⟨r, by omega, hc⟩
  have hnil : ((Sudoku.solve (S.N ^ 2 + 1) S).solveRound).2 = [] :=
    List.length_eq_zero.mp hlen
  exact ⟨hnil, fun f => Sudoku.solve_fix hnil f, Sudoku.solveRound_fix hnil⟩

theorem claim_C9_witness :
    (mkSudoku 1 1 [[1]]).WF ∧
    ((Sudoku.solve ((mkSudoku 1 1 [[1]]).N ^ 2 + 1)
      (mkSudoku 1 1 [[1]])).solveRound).2 = [] :=
  ⟨by decide,
   (claim_C9_idempotence _ (by decide) (by decide) (by decide)).1⟩

/-- C10: Constructing a `Sudoku` with no positional or keyword arguments
fails with the source's error "Either the size or the grid must be
given."; the class attribute `default = {'m': 3}` is never consulted by
`__init__`, so no default block size `m = 3` is applied — no default 9×9
grid results. -/
theorem claim_C10_no_default_size :
    initSudoku none none none =
      .error (.argErr ("Either the size or the grid must be given.")) := rfl
